import Mathlib

/-!
# Shallow embedding of the `pyautomata` finite-automaton engine

This file embeds the Python sources of the repository (chiefly
`src/automata/automata.py` together with the pair utility
`src/automata/utils/unordered_pairs.py`) into Lean and proves / refutes the
specification claims about them.

Modelling conventions:
* Python `dict[int, State]` becomes an association list `List (Nat × State)`
  (Python dicts preserve insertion order; one binding per key is guaranteed by
  `add_state`).  Lookup is `List.lookup`.
* Python `set`s of ints become `Finset Nat` where set-equality matters
  (the subsets manipulated by the subset construction), and plain lists with
  membership semantics elsewhere.
* A transition's letter set (`set(letters)` in Python) is kept as the
  `List Char` it was built from; every use in the source is membership-based.
* Raised exceptions become `Except PyErr` / an `Option PyErr` component.  A
  mutating method that can raise *after* mutating (Python leaves the object in
  its mutated state) returns the post-mutation value together with
  `Option PyErr`.
* State identities are `Nat`: the data model fixes them as small non-negative
  integers chosen by the caller.
* Worklist loops are given explicit fuel; a dedicated `fuelExhausted` error
  marks the (provably unreachable, for the fuel chosen) exhaustion case.
-/

/-- The errors the Python code can raise, named by raise site following the
spec's error taxonomy (the source raises `ValueError` with distinct messages,
plus built-in `KeyError` for missing dict keys and `TypeError` for ordering
`None`). `fuelExhausted` is an artefact of modelling the worklist loops with
fuel; it is proved unreachable for the fuel used. -/
inductive PyErr where
  | duplicateState
  | multipleInitialStates
  | unknownLetter
  | unknownState
  | nonDeterministicTransition
  | keyError
  | typeError
  | fuelExhausted
  deriving DecidableEq

/-- `Transition` from `automata.py`: a set of letter labels and a target id. -/
structure Transition where
  letters : List Char
  target : Nat
  deriving DecidableEq

/-- `State` from `automata.py`: id, outgoing transitions, `initial`/`final`
flags.  The Python transition *set* holds distinct objects (identity-based
hashing), so a list in insertion order is a faithful rendering. -/
structure State where
  id : Nat
  transitions : List Transition
  initial : Bool
  final : Bool
  deriving DecidableEq

/-- `DFAutomaton`'s data: alphabet, state map, the single optional initial
state id, the final-state id cache and the `_completed` flag. -/
structure DFAutomaton where
  alphabet : List Char
  states : List (Nat × State)
  initialStateId : Option Nat
  finalStatesIds : List Nat
  completed : Bool
  deriving DecidableEq

/-- `NFAutomaton`'s data: alphabet, state map, the set of initial state ids,
the final-state id cache and the `_completed` flag.  The two id sets are
`Finset`s because the subset construction compares such sets by extension. -/
structure NFAutomaton where
  alphabet : List Char
  states : List (Nat × State)
  initialStatesIds : Finset Nat
  finalStatesIds : Finset Nat
  completed : Bool
  deriving DecidableEq

/-- `_is_word_on_alphabet`: the label set must be a subset of the alphabet. -/
def is_word_on_alphabet (word : List Char) (alphabet : List Char) : Bool :=
  word.all (fun l => l ∈ alphabet)

namespace DFAutomaton

/-- `DFAutomaton.__init__`: fresh DFA over `alphabet`. -/
def new (alphabet : List Char) : DFAutomaton :=
  { alphabet := alphabet
    states := []
    initialStateId := none
    finalStatesIds := []
    completed := false }

/-- Key lookup in the state dict (`self._states.get(id, None)`). -/
def getState (dfa : DFAutomaton) (id : Nat) : Option State :=
  dfa.states.lookup id

/-- The keys of the state dict, in insertion order. -/
def stateIds (dfa : DFAutomaton) : List Nat :=
  dfa.states.map Prod.fst

/-- `DFAutomaton.successor`: scans the outgoing transitions of `state_id` for
one whose letter set contains `letter`; `.ok none` models Python's `return
None`, `.error .keyError` models `self._states[state_id]` raising on a missing
key.  (Python iterates a set of transitions in unspecified order; under the
DFA determinism invariant at most one matches, and the embedding scans in
insertion order.) -/
def successor (dfa : DFAutomaton) (stateId : Nat) (letter : Char) :
    Except PyErr (Option Nat) :=
  match dfa.getState stateId with
  | none => .error .keyError
  | some st =>
      .ok (st.transitions.findSome? fun t =>
        if letter ∈ t.letters then some t.target else none)

/-- The word-consuming loop of `DFAutomaton.accepts`, starting at state id
`cur`: advance via `successor`, reject on an undefined successor, and read the
final flag of the state reached at the end of the word. -/
def acceptsFrom (dfa : DFAutomaton) : Nat → List Char → Except PyErr Bool
  | cur, [] =>
      match dfa.getState cur with
      | none => .error .keyError
      | some st => .ok st.final
  | cur, letter :: rest =>
      match dfa.successor cur letter with
      | .error e => .error e
      | .ok none => .ok false
      | .ok (some nxt) => dfa.acceptsFrom nxt rest

/-- `DFAutomaton.accepts`: immediately rejects when no initial state is set,
otherwise runs the successor loop from the initial state. -/
def accepts (dfa : DFAutomaton) (word : List Char) : Except PyErr Bool :=
  match dfa.initialStateId with
  | none => .ok false
  | some i => dfa.acceptsFrom i word

/-- `DFAutomaton.add_state`.  Mirrors the source's statement order exactly:
the new `State` is inserted into the state dict *before* the
multiple-initial-states check, so on that error the returned automaton keeps
the inserted state (Python leaves the mutated object behind the exception). -/
def add_state (dfa : DFAutomaton) (id : Nat) (initial final : Bool) :
    DFAutomaton × Option PyErr :=
  match dfa.getState id with
  | some _ => (dfa, some .duplicateState)
  | none =>
      let dfa1 := { dfa with
        states := dfa.states ++ [(id, State.mk id [] initial final)] }
      if initial then
        match dfa1.initialStateId with
        | some _ => (dfa1, some .multipleInitialStates)
        | none =>
            let dfa2 := { dfa1 with initialStateId := some id }
            if final then
              ({ dfa2 with finalStatesIds := dfa2.finalStatesIds ++ [id] }, none)
            else (dfa2, none)
      else
        if final then
          ({ dfa1 with finalStatesIds := dfa1.finalStatesIds ++ [id] }, none)
        else (dfa1, none)

/-- Replace the binding of `id` in an association list (the Python code
mutates the `State` object in place; the dict itself is unchanged, so the
binding keeps its position). -/
def updateState (states : List (Nat × State)) (id : Nat) (st : State) :
    List (Nat × State) :=
  states.map fun p => if p.1 = id then (p.1, st) else p

/-- `DFAutomaton.add_transition`, with the source's check order: alphabet
membership, source exists, target exists, determinism; only then is the
transition appended to the source state's transitions.  All checks precede
the mutation, so an error leaves the automaton unchanged. -/
def add_transition (dfa : DFAutomaton) (letters : List Char)
    (fromId toId : Nat) : DFAutomaton × Option PyErr :=
  if ¬ is_word_on_alphabet letters dfa.alphabet then
    (dfa, some .unknownLetter)
  else
    match dfa.getState fromId, dfa.getState toId with
    | none, _ => (dfa, some .unknownState)
    | some _, none => (dfa, some .unknownState)
    | some fromState, some _ =>
        if letters.any (fun letter =>
            fromState.transitions.any (fun t => letter ∈ t.letters)) then
          (dfa, some .nonDeterministicTransition)
        else
          let fromState' := { fromState with
            transitions := fromState.transitions ++ [Transition.mk letters toId] }
          ({ dfa with states := updateState dfa.states fromId fromState' }, none)

end DFAutomaton

/-- Convert a mutation result to `Except`: used where the Python caller owns
the freshly-built object, so an escaping exception discards it. -/
def toExcept : DFAutomaton × Option PyErr → Except PyErr DFAutomaton
  | (d, none) => .ok d
  | (_, some e) => .error e

/-- `not a.isdisjoint(b)` is `!isdisjoint a b`. -/
def isdisjoint (a b : Finset Nat) : Bool := decide (a ∩ b = ∅)

namespace NFAutomaton

/-- `NFAutomaton.__init__`: fresh NFA over `alphabet`. -/
def new (alphabet : List Char) : NFAutomaton :=
  { alphabet := alphabet
    states := []
    initialStatesIds := ∅
    finalStatesIds := ∅
    completed := false }

/-- Key lookup in the state dict. -/
def getState (nfa : NFAutomaton) (id : Nat) : Option State :=
  nfa.states.lookup id

/-- The keys of the state dict, in insertion order. -/
def stateIds (nfa : NFAutomaton) : List Nat :=
  nfa.states.map Prod.fst

/-- The keys of the state dict as a `Finset`. -/
def idSet (nfa : NFAutomaton) : Finset Nat :=
  nfa.stateIds.toFinset

/-- The test `transition._letters == ""` in `_get_reachable_states`.  The
left operand is always a Python `set` (`add_transition` stores
`set(letters)`), and in Python a set never compares equal to a string —
`set() == ""` is `False` — so this test is `False` for every letter set,
including the empty one. -/
def lettersEqEmptyString (_letters : List Char) : Bool := false

/-- The targets contributed by state `q` to `_get_reachable_states(letter, ·)`:
targets of the transitions of `q` passing the test
`transition._letters == "" or (letter in transition._letters)`.  The default
`[]` for a missing `q` is never used: the caller checks key membership (a
missing key raises `KeyError`) before taking the union. -/
def letterTargets (nfa : NFAutomaton) (letter : Char) (q : Nat) : Finset Nat :=
  ((((nfa.getState q).map State.transitions).getD []).filter (fun t =>
      lettersEqEmptyString t.letters || decide (letter ∈ t.letters))).foldr
    (fun t acc => insert t.target acc) ∅

/-- The set value computed by `_get_reachable_states` (total version, for
reasoning; its domain condition is checked by `get_reachable_states`). -/
def stepSet (nfa : NFAutomaton) (letter : Char) (statesIds : Finset Nat) :
    Finset Nat :=
  statesIds.biUnion (nfa.letterTargets letter)

/-- `NFAutomaton._get_reachable_states`: union over `states_ids` of the
matching transition targets; `self._states[state_id]` raises `KeyError` when
some id of the set is not a key of the state map. -/
def get_reachable_states (nfa : NFAutomaton) (letter : Char)
    (statesIds : Finset Nat) : Except PyErr (Finset Nat) :=
  if ∀ q ∈ statesIds, (nfa.getState q).isSome then
    .ok (nfa.stepSet letter statesIds)
  else .error .keyError

/-- The word loop of `NFAutomaton.accepts`: step the reachable set through the
word, then intersect with the final-state cache. -/
def acceptsFrom (nfa : NFAutomaton) : Finset Nat → List Char → Except PyErr Bool
  | reachable, [] => .ok (!isdisjoint reachable nfa.finalStatesIds)
  | reachable, letter :: rest => do
      let reachable' ← nfa.get_reachable_states letter reachable
      nfa.acceptsFrom reachable' rest

/-- `NFAutomaton.accepts`: run the step loop from the initial-state set. -/
def accepts (nfa : NFAutomaton) (word : List Char) : Except PyErr Bool :=
  nfa.acceptsFrom nfa.initialStatesIds word

/-- `NFAutomaton.add_state` (the NFA variant never raises for a second
initial state: initial ids form a set). -/
def add_state (nfa : NFAutomaton) (id : Nat) (initial final : Bool) :
    NFAutomaton × Option PyErr :=
  match nfa.getState id with
  | some _ => (nfa, some .duplicateState)
  | none =>
      let nfa1 := { nfa with
        states := nfa.states ++ [(id, State.mk id [] initial final)] }
      let nfa2 := if initial then
        { nfa1 with initialStatesIds := insert id nfa1.initialStatesIds } else nfa1
      if final then
        ({ nfa2 with finalStatesIds := insert id nfa2.finalStatesIds }, none)
      else (nfa2, none)

/-- `NFAutomaton.add_transition`: same checks as the DFA variant except the
determinism check. -/
def add_transition (nfa : NFAutomaton) (letters : List Char)
    (fromId toId : Nat) : NFAutomaton × Option PyErr :=
  if ¬ is_word_on_alphabet letters nfa.alphabet then
    (nfa, some .unknownLetter)
  else
    match nfa.getState fromId, nfa.getState toId with
    | none, _ => (nfa, some .unknownState)
    | some _, none => (nfa, some .unknownState)
    | some fromState, some _ =>
        let fromState' := { fromState with
          transitions := fromState.transitions ++ [Transition.mk letters toId] }
        ({ nfa with states := DFAutomaton.updateState nfa.states fromId fromState' },
         none)

/-- The inner `for letter in self._alphabet` loop of `determinized`, for the
dequeued subset `currentIds`: compute the step subset; if it is new, add a DFA
state for it (id = current length of `new_states`, final iff it meets the
NFA's final set), append it to `new_states` and record it for enqueueing;
in all cases add a DFA transition on the letter between the subsets'
`new_states` indices (`index` is positional search by set equality). -/
def determinizedStep (nfa : NFAutomaton) :
    List Char → DFAutomaton → List (Finset Nat) → List (Finset Nat) →
    Finset Nat →
    Except PyErr (DFAutomaton × List (Finset Nat) × List (Finset Nat))
  | [], dfa, newStates, enqueued, _ => .ok (dfa, newStates, enqueued)
  | letter :: rest, dfa, newStates, enqueued, currentIds => do
      let reachableIds ← nfa.get_reachable_states letter currentIds
      if reachableIds ∈ newStates then do
        let dfa' ← toExcept (dfa.add_transition [letter]
          (newStates.indexOf currentIds) (newStates.indexOf reachableIds))
        nfa.determinizedStep rest dfa' newStates enqueued currentIds
      else do
        let dfa' ← toExcept (dfa.add_state newStates.length false
          (!isdisjoint nfa.finalStatesIds reachableIds))
        let newStates' := newStates ++ [reachableIds]
        let dfa'' ← toExcept (dfa'.add_transition [letter]
          (newStates'.indexOf currentIds) (newStates'.indexOf reachableIds))
        nfa.determinizedStep rest dfa'' newStates' (enqueued ++ [reachableIds])
          currentIds

/-- The worklist loop of `determinized`.  The fuel bounds the number of
dequeues: every enqueued subset is a previously-unseen subset of the NFA's
state ids, so at most `2 ^ |states|` subsets are ever enqueued; the fuel
chosen by `determinized` is proved sufficient. -/
def determinizedLoop (nfa : NFAutomaton) :
    Nat → List (Finset Nat) → DFAutomaton → List (Finset Nat) →
    Except PyErr DFAutomaton
  | _, [], dfa, _ => .ok dfa
  | 0, _ :: _, _, _ => .error .fuelExhausted
  | fuel + 1, currentIds :: queueRest, dfa, newStates => do
      let (dfa', newStates', enqueued) ←
        nfa.determinizedStep nfa.alphabet dfa newStates [] currentIds
      nfa.determinizedLoop fuel (queueRest ++ enqueued) dfa' newStates'

/-- `NFAutomaton.determinized`: subset construction.  DFA state `0` is the
initial-state set (marked final iff it meets the NFA's final set), then the
worklist processes each discovered subset once. -/
def determinized (nfa : NFAutomaton) : Except PyErr DFAutomaton := do
  let dfa ← toExcept ((DFAutomaton.new nfa.alphabet).add_state 0 true
    (!isdisjoint nfa.finalStatesIds nfa.initialStatesIds))
  nfa.determinizedLoop (2 ^ nfa.states.length + 1) [nfa.initialStatesIds] dfa
    [nfa.initialStatesIds]

end NFAutomaton

/-- The letters of the alphabet for which `st` has no outgoing transition:
`self._alphabet.difference(all_transitions)` in the shared
`FAutomaton.complete`, where `all_transitions` is the union of the letter
sets of `st`'s transitions (rendered as the membership-equal filtered
list). -/
def missingLetters (alphabet : List Char) (st : State) : List Char :=
  alphabet.filter fun l => !(st.transitions.any fun t => l ∈ t.letters)

namespace DFAutomaton

/-- The `transitions_to_add` dict built by the first loop of
`FAutomaton.complete`: deficient state ids with their missing letters, in
state-map order.  `complete` found the automaton already complete iff this is
empty. -/
def transitionsToAdd (dfa : DFAutomaton) : List (Nat × List Char) :=
  dfa.states.filterMap fun p =>
    let miss := missingLetters dfa.alphabet p.2
    if miss.isEmpty then none else some (p.1, miss)

/-- The loop `for state_id, letters in transitions_to_add.items()` of
`complete`, adding a transition on the missing letters to the hole state; a
raise would propagate with the partially mutated automaton. -/
def addHoleTransitions : DFAutomaton → List (Nat × List Char) → Nat →
    DFAutomaton × Option PyErr
  | dfa, [], _ => (dfa, none)
  | dfa, (stateId, letters) :: rest, piId =>
      match dfa.add_transition letters stateId piId with
      | (dfa', some e) => (dfa', some e)
      | (dfa', none) => addHoleTransitions dfa' rest piId

/-- `FAutomaton.complete` (DFA variant; the method is shared and virtual-
dispatches to the variant's `add_state`/`add_transition`).  When some state
misses letters: create the hole state with id `sum(keys) + 1`, give it a
self-loop on the whole alphabet, and connect each deficient state to it on
its missing letters.  Returns the automaton after the call together with
`.ok b` (`b` = "was already complete") or `.error e` (a propagated exception,
in which case the `_completed` flag was not set). -/
def complete (dfa : DFAutomaton) : DFAutomaton × Except PyErr Bool :=
  let toAdd := transitionsToAdd dfa
  if toAdd.isEmpty then ({ dfa with completed := true }, .ok true)
  else
    let piId := dfa.stateIds.sum + 1
    match dfa.add_state piId false false with
    | (dfa1, some e) => (dfa1, .error e)
    | (dfa1, none) =>
        match dfa1.add_transition dfa.alphabet piId piId with
        | (dfa2, some e) => (dfa2, .error e)
        | (dfa2, none) =>
            match addHoleTransitions dfa2 toAdd piId with
            | (dfa3, some e) => (dfa3, .error e)
            | (dfa3, none) => ({ dfa3 with completed := true }, .ok false)

/-- The body of the BFS loop of `reachable_part` scanning the dequeued
state's transitions: reading `waiting[transition._to]` raises `KeyError` when
the target is not a key of the (original) state map; a target neither waiting
nor marked is enqueued and set waiting.  `marked` is the marked-`True` id set
after the dequeued state was marked. -/
def bfsScan (dfa : DFAutomaton) (marked : List Nat) :
    List Transition → List Nat → List Nat →
    Except PyErr (List Nat × List Nat)
  | [], enqueued, waiting => .ok (enqueued, waiting)
  | t :: rest, enqueued, waiting =>
      if t.target ∈ dfa.stateIds then
        if t.target ∉ waiting ∧ t.target ∉ marked then
          bfsScan dfa marked rest (enqueued ++ [t.target]) (t.target :: waiting)
        else bfsScan dfa marked rest enqueued waiting
      else .error .keyError

/-- The BFS worklist loop of `reachable_part`: dequeue, mark, scan
transitions.  `marked`/`waiting` are the ids whose dict value is `True`.  The
fuel bounds the number of dequeues: each enqueue flips one key of the original
state map from not-waiting to waiting, so at most `|states|` enqueues follow
the single initial one; the fuel chosen by `reachable_part` is proved
sufficient. -/
def bfsLoop (dfa : DFAutomaton) : Nat → List Nat → List Nat → List Nat →
    Except PyErr (List Nat)
  | _, [], marked, _ => .ok marked
  | 0, _ :: _, _, _ => .error .fuelExhausted
  | fuel + 1, q :: queueRest, marked, waiting =>
      let marked' := if q ∈ marked then marked else marked ++ [q]
      match dfa.getState q with
      | none => .error .keyError
      | some st =>
          match dfa.bfsScan marked' st.transitions [] waiting with
          | .error e => .error e
          | .ok (enqueued, waiting') =>
              dfa.bfsLoop fuel (queueRest ++ enqueued) marked' waiting'

/-- `DFAutomaton.reachable_part`: BFS from the initial state, then a deep
copy keeping only the marked states (and discarding unmarked ids from the
final-state cache — ids absent from the state map are not iterated over by
`marked.items()` and so survive in the cache).  When no initial state is set
the queue holds `None` and `self._states[None]` raises `KeyError` on the
first iteration. -/
def reachable_part (dfa : DFAutomaton) : Except PyErr DFAutomaton :=
  match dfa.initialStateId with
  | none => .error .keyError
  | some i =>
      match dfa.bfsLoop (dfa.states.length + 1) [i] [] [] with
      | .error e => .error e
      | .ok marked =>
          .ok { dfa with
            states := dfa.states.filter fun p => decide (p.1 ∈ marked)
            finalStatesIds := dfa.finalStatesIds.filter fun x =>
              decide (x ∈ marked ∨ x ∉ dfa.stateIds) }

end DFAutomaton

/-- `UnorderedPair.__init__` normalizes its components at construction
(`_a = a if a <= b else b`, `_b = b if b > a else a`), and equality and
hashing are componentwise on `(_a, _b)`, so the ordered pair `(min, max)` is
a faithful model. -/
def mkUnorderedPair (a b : Nat) : Nat × Nat := (min a b, max a b)

/-- `UnorderedPair(successor(q.a, letter), successor(q.b, letter))` in
`equivalent_states`: when a successor is undefined (`None`), `__init__`
evaluates `a <= b` with a `None` operand, which raises `TypeError` in
Python 3. -/
def mkSuccessorPair : Option Nat → Option Nat → Except PyErr (Nat × Nat)
  | some a, some b => .ok (mkUnorderedPair a b)
  | _, _ => .error .typeError

/-- `unique_unordered_pairs(iterable)`: for the element at position `i`, the
generator yields its pair with each later element, taking the later elements
in reverse order — the output order for an insertion-ordered key view. -/
def unique_unordered_pairs : List Nat → List (Nat × Nat)
  | [] => []
  | x :: xs => (xs.reverse.map (mkUnorderedPair x)) ++ unique_unordered_pairs xs

namespace DFAutomaton

/-- The first phase of `equivalent_states`: every pair with exactly one final
member is moved from `equivalents` to `not_equivalents`.  `set.remove` raises
`KeyError` when the element is absent (it never is in this phase: the pairs
iterated are distinct and all start in `equivalents`). -/
def initialSplit (dfa : DFAutomaton) :
    List (Nat × Nat) → List (Nat × Nat) → List (Nat × Nat) →
    Except PyErr (List (Nat × Nat) × List (Nat × Nat))
  | [], equivalents, notEquivalents => .ok (equivalents, notEquivalents)
  | p :: rest, equivalents, notEquivalents =>
      match dfa.getState p.1, dfa.getState p.2 with
      | some q, some qp =>
          if (q.final && !qp.final) || (qp.final && !q.final) then
            if p ∈ equivalents then
              dfa.initialSplit rest (equivalents.erase p)
                (notEquivalents.insert p)
            else .error .keyError
          else dfa.initialSplit rest equivalents notEquivalents
      | _, _ => .error .keyError

/-- The refinement step of `equivalent_states` for one candidate pair `q`,
over the alphabet: if the pair of letter-successors is already known
inequivalent, mark `q` inequivalent too: `not_equivalents.add(q)` then
`equivalents.remove(q)` — the latter raises `KeyError` when `q` is no longer
(or never was) in `equivalents`. -/
def refineLetters (dfa : DFAutomaton) (q : Nat × Nat) :
    List Char → List (Nat × Nat) → List (Nat × Nat) → Bool →
    Except PyErr (List (Nat × Nat) × List (Nat × Nat) × Bool)
  | [], equivalents, notEquivalents, flag => .ok (equivalents, notEquivalents, flag)
  | letter :: rest, equivalents, notEquivalents, flag => do
      let sa ← dfa.successor q.1 letter
      let sb ← dfa.successor q.2 letter
      let p ← mkSuccessorPair sa sb
      if p ∈ notEquivalents then
        if q ∈ equivalents then
          dfa.refineLetters q rest (equivalents.erase q)
            (notEquivalents.insert q) true
        else .error .keyError
      else dfa.refineLetters q rest equivalents notEquivalents flag

/-- One full pass of the `while new_neq_states` loop over all pairs of state
ids (the source iterates *all* pairs again, not only the remaining
candidates). -/
def refinePass (dfa : DFAutomaton) :
    List (Nat × Nat) → List (Nat × Nat) → List (Nat × Nat) → Bool →
    Except PyErr (List (Nat × Nat) × List (Nat × Nat) × Bool)
  | [], equivalents, notEquivalents, flag => .ok (equivalents, notEquivalents, flag)
  | q :: rest, equivalents, notEquivalents, flag =>
      match dfa.refineLetters q dfa.alphabet equivalents notEquivalents flag with
      | .error e => .error e
      | .ok (eq', neq', flag') => dfa.refinePass rest eq' neq' flag'

/-- The `while new_neq_states` loop.  Fuel bounds the passes: a pass asking
for another one has removed at least one pair from `equivalents`, so the
number of passes is at most the initial pair count plus one; the fuel chosen
by `equivalent_states` is therefore sufficient whenever the loop terminates
normally in Python. -/
def refineLoop (dfa : DFAutomaton) : Nat → List (Nat × Nat) → List (Nat × Nat) →
    Except PyErr (List (Nat × Nat))
  | 0, _, _ => .error .fuelExhausted
  | fuel + 1, equivalents, notEquivalents =>
      match dfa.refinePass (unique_unordered_pairs dfa.stateIds)
          equivalents notEquivalents false with
      | .error e => .error e
      | .ok (eq', neq', true) => dfa.refineLoop fuel eq' neq'
      | .ok (eq', _, false) => .ok eq'

end DFAutomaton

namespace DFAutomaton

/-- `DFAutomaton.equivalent_states`: start from all unordered pairs of state
ids, run the final/non-final split, then refine to a fixpoint. -/
def equivalent_states (dfa : DFAutomaton) : Except PyErr (List (Nat × Nat)) :=
  let pairs := unique_unordered_pairs dfa.stateIds
  match dfa.initialSplit pairs pairs [] with
  | .error e => .error e
  | .ok (equivalents, notEquivalents) =>
      dfa.refineLoop (pairs.length + 1) equivalents notEquivalents

/-- `DFAutomaton.merge_equivalent_states`: for each equivalent pair
`(q, qp)` (iteration binds `q, qp` to the normalized `(min, max)`), pop `qp`
from the state map (`pop` with a default never raises); then, from each
remaining state, drop the transitions whose `(state._id, target)` unordered
pair is in the equivalence set. -/
def dropEquivTransitions (eq : List (Nat × Nat)) (st : State) : State :=
  let keep := fun (t : Transition) => decide (mkUnorderedPair st.id t.target ∉ eq)
  { st with transitions := st.transitions.filter keep }

/-- See `merge_equivalent_states`; `dropEquivTransitions` is its second
loop's body for one remaining state. -/
def merge_equivalent_states (dfa : DFAutomaton) : Except PyErr DFAutomaton :=
  match dfa.equivalent_states with
  | .error e => .error e
  | .ok eq =>
      let removed := eq.map Prod.snd
      let statesAfterPop := dfa.states.filter fun p => decide (p.1 ∉ removed)
      .ok { dfa with
        states := statesAfterPop.map fun p => (p.1, dropEquivTransitions eq p.2) }

/-- `DFAutomaton.minimized`: `reachable_part`, then `complete` on the copy
(an exception from it propagates with `_completed` unset), then
`merge_equivalent_states` on the copy. -/
def minimized (dfa : DFAutomaton) : Except PyErr DFAutomaton :=
  match dfa.reachable_part with
  | .error e => .error e
  | .ok m =>
      match m.complete with
      | (_, .error e) => .error e
      | (m1, .ok _) => m1.merge_equivalent_states

end DFAutomaton

/-! ## Example automata (built through the construction API) -/

/-- The even-number-of-zeros DFA from the repository's tests (`test_dfa`). -/
def parityDFA : DFAutomaton :=
  let d := DFAutomaton.new ['0', '1']
  let d := (d.add_state 0 true true).1
  let d := (d.add_state 1 false false).1
  let d := (d.add_transition ['0'] 0 0).1
  let d := (d.add_transition ['1'] 0 1).1
  let d := (d.add_transition ['1'] 1 1).1
  (d.add_transition ['0'] 1 0).1

/-- The words-ending-in-`a` NFA from the repository's tests (`test_nfa`). -/
def endA : NFAutomaton :=
  let n := NFAutomaton.new ['a', 'b']
  let n := (n.add_state 0 true false).1
  let n := (n.add_state 1 false true).1
  let n := (n.add_state 2 false false).1
  let n := (n.add_transition ['a', 'b'] 0 0).1
  let n := (n.add_transition ['a'] 0 1).1
  let n := (n.add_transition ['a', 'b'] 1 2).1
  (n.add_transition ['a', 'b'] 2 2).1

/-- The incomplete `(b(a+b))*` DFA from the repository's tests
(`test_complete`). -/
def babDFA : DFAutomaton :=
  let d := DFAutomaton.new ['a', 'b']
  let d := (d.add_state 0 true true).1
  let d := (d.add_state 1 false false).1
  let d := (d.add_transition ['b'] 0 1).1
  (d.add_transition ['a', 'b'] 1 0).1

/-- A complete, fully reachable three-state cycle over `{a}` accepting word
lengths divisible by three.  All its states are pairwise inequivalent. -/
def cycleDFA : DFAutomaton :=
  let d := DFAutomaton.new ['a']
  let d := (d.add_state 0 true true).1
  let d := (d.add_state 1 false false).1
  let d := (d.add_state 2 false false).1
  let d := (d.add_transition ['a'] 0 2).1
  let d := (d.add_transition ['a'] 1 0).1
  (d.add_transition ['a'] 2 1).1

/-- A DFA whose states 1 and 2 are equivalent while state 0 (which has a
transition into 2) is not equivalent to either. -/
def loopDFA : DFAutomaton :=
  let d := DFAutomaton.new ['a']
  let d := (d.add_state 0 true true).1
  let d := (d.add_state 1 false false).1
  let d := (d.add_state 2 false false).1
  let d := (d.add_transition ['a'] 0 2).1
  let d := (d.add_transition ['a'] 1 1).1
  (d.add_transition ['a'] 2 2).1

/-- The result of merging `loopDFA`'s equivalent states (extracted from the
computation; the accompanying theorems prove the extraction equation). -/
def loopDFAmerged : DFAutomaton :=
  (loopDFA.merge_equivalent_states).toOption.getD (DFAutomaton.new [])

/-- The four-state DFA of the repository's `test_merge_equivalent`, whose
states 1, 2 and 3 are pairwise equivalent. -/
def merge4DFA : DFAutomaton :=
  let d := DFAutomaton.new ['0', '1']
  let d := (d.add_state 0 true true).1
  let d := (d.add_state 1 false false).1
  let d := (d.add_state 2 false false).1
  let d := (d.add_state 3 false false).1
  let d := (d.add_transition ['0'] 0 0).1
  let d := (d.add_transition ['1'] 0 1).1
  let d := (d.add_transition ['1'] 1 1).1
  let d := (d.add_transition ['0'] 1 0).1
  let d := (d.add_transition ['0'] 2 0).1
  let d := (d.add_transition ['1'] 2 1).1
  let d := (d.add_transition ['0'] 3 0).1
  (d.add_transition ['1'] 3 1).1

/-- The result of merging `merge4DFA`'s equivalent states. -/
def merge4DFAmerged : DFAutomaton :=
  (merge4DFA.merge_equivalent_states).toOption.getD (DFAutomaton.new [])

/-- The parity DFA extended with an unreachable third state
(`test_reachable`). -/
def reach3DFA : DFAutomaton :=
  let d := DFAutomaton.new ['0', '1']
  let d := (d.add_state 0 true true).1
  let d := (d.add_state 1 false false).1
  let d := (d.add_state 2 false false).1
  let d := (d.add_transition ['0'] 0 0).1
  let d := (d.add_transition ['1'] 0 1).1
  let d := (d.add_transition ['1'] 1 1).1
  let d := (d.add_transition ['0'] 1 0).1
  let d := (d.add_transition ['0'] 2 1).1
  (d.add_transition ['1'] 2 0).1

/-- A two-state NFA with a single transition carrying an *empty* letter set
(`add_transition("", 0, 1)` passes validation: the empty set is a subset of
any alphabet). -/
def epsNFA : NFAutomaton :=
  let n := NFAutomaton.new ['a', 'b']
  let n := (n.add_state 0 true false).1
  let n := (n.add_state 1 false true).1
  (n.add_transition [] 0 1).1

/-- A one-state DFA with an initial state, used to exhibit `add_state`'s
non-atomic failure. -/
def oneInitDFA : DFAutomaton :=
  ((DFAutomaton.new ['a']).add_state 0 true false).1

/-! ## Claim C2 -/

/-- Claim C2 (`minimized` is language-preserving and returns normally, for
every DFA): refuted by the code.  On `cycleDFA` — complete, fully reachable,
all states pairwise inequivalent — the refinement loop of `equivalent_states`
revisits the pair `(0, 1)`, already marked inequivalent by the final/non-final
split, finds its successor pair `(0, 2)` in `not_equivalents`, and executes
`equivalents.remove((0, 1))` on a set that does not contain it: `KeyError`.
`minimized` therefore raises instead of returning a minimized automaton. -/
theorem c2_minimized_raises_keyerror :
    cycleDFA.minimized = .error .keyError ∧
      cycleDFA.equivalent_states = .error .keyError := ⟨rfl, rfl⟩

/-! ## Claim C7 -/

/-- Claim C7 (the NFA step function always follows transitions whose letter
set is empty): refuted by the code.  `epsNFA`'s state 0 carries exactly one
transition, with an empty letter set, targeting state 1; yet
`_get_reachable_states('a', {0})` is empty — the membership test
`letter in transition._letters` fails and the test `transition._letters == ""`
compares a set with a string, which is `False` in Python no matter the set —
so the empty-letter edge is never followed and the word `"a"` is rejected
although following the edge would reach the final state 1. -/
theorem c7_empty_letter_set_edge_not_followed :
    (epsNFA.getState 0).map State.transitions = some [Transition.mk [] 1] ∧
      epsNFA.get_reachable_states 'a' {0} = .ok ∅ ∧
      epsNFA.accepts ['a'] = .ok false := ⟨rfl, rfl, rfl⟩

/-! ## Claim C5 -/

/-- Claim C5 (a failing `add_state` leaves the automaton completely
unchanged): refuted by the code.  On a DFA that already has an initial state,
`add_state(1, initial=True)` raises `MultipleInitialStatesError`, but the
state map afterwards *does* contain the freshly inserted state 1: the
insertion `self._states[id] = State(...)` precedes the initial-state check. -/
theorem c5_add_state_failure_not_atomic :
    (oneInitDFA.add_state 1 true false).2 = some .multipleInitialStates ∧
      (oneInitDFA.add_state 1 true false).1.states ≠ oneInitDFA.states := by
  constructor
  · rfl
  · decide

/-! ## Claim C6 -/

/-- Claim C6 (a normally-returning `merge_equivalent_states` never leaves a
dangling transition): refuted by the code.  On `loopDFA` the computed
equivalence set is `{(1, 2)}`; merging pops state 2, but state 0's transition
to 2 survives — the cleanup loop only removes transitions whose
`(source, target)` pair is itself in the equivalence set, and `(0, 2)` is not
— so the remaining state 0 keeps a transition to the removed id 2. -/
theorem c6_merge_leaves_dangling_transition :
    loopDFA.merge_equivalent_states = .ok loopDFAmerged ∧
      loopDFAmerged.stateIds = [0, 1] ∧
      (loopDFAmerged.getState 0).map State.transitions =
        some [Transition.mk ['a'] 2] ∧
      loopDFAmerged.getState 2 = none := ⟨rfl, rfl, rfl, rfl⟩

/-! ## Claim C9 -/

/-- Claim C9 (`accepts` never raises, for every automaton): refuted by the
code.  `merge_equivalent_states` can output an automaton with a dangling
transition (see `loopDFA`): on that output, `accepts("a")` follows the
transition of state 0 to the removed state 2 and then `self._states[2]`
raises `KeyError`. -/
theorem c9_accepts_raises_on_dangling_automaton :
    loopDFA.merge_equivalent_states = .ok loopDFAmerged ∧
      loopDFAmerged.accepts ['a'] = .error .keyError := ⟨rfl, rfl⟩

/-- Claim C5, amended: on a DFA that already has an initial state, a fresh-id
`add_state(id, initial=True, final)` raises `MultipleInitialStatesError` and
leaves the initial-state slot and the final-states cache unchanged, but the
freshly created state remains inserted in the state map (the mutation is not
rolled back). -/
theorem c5_add_state_second_initial (dfa : DFAutomaton) (id : Nat) (fin : Bool)
    (hinit : dfa.initialStateId.isSome) (hfresh : dfa.getState id = none) :
    dfa.add_state id true fin =
      ({ dfa with states := dfa.states ++ [(id, State.mk id [] true fin)] },
       some .multipleInitialStates) := by
  unfold DFAutomaton.add_state
  rw [hfresh]
  obtain ⟨i, hi⟩ := Option.isSome_iff_exists.mp hinit
  simp [hi]

/-- Witness for `c5_add_state_second_initial` at `oneInitDFA` and id 1. -/
theorem c5_witness :
    oneInitDFA.initialStateId.isSome = true ∧
      oneInitDFA.getState 1 = none ∧
      oneInitDFA.add_state 1 true false =
        ({ oneInitDFA with
            states := oneInitDFA.states ++ [(1, State.mk 1 [] true false)] },
         some .multipleInitialStates) :=
  ⟨rfl, rfl, c5_add_state_second_initial oneInitDFA 1 false (by rfl) rfl⟩

/-- Claim C6, amended: when `merge_equivalent_states` returns normally, no
remaining state retains a transition whose `(source id, target)` unordered
pair is in the computed equivalence set (those are exactly the transitions the
cleanup loop removes); transitions to a removed state may survive when the
source is not equivalent to the target. -/
theorem c6_merge_drops_equivalent_pair_transitions
    (dfa dfa' : DFAutomaton) (h : dfa.merge_equivalent_states = .ok dfa') :
    ∃ eq, dfa.equivalent_states = .ok eq ∧
      ∀ p ∈ dfa'.states, ∀ t ∈ p.2.transitions,
        mkUnorderedPair p.2.id t.target ∉ eq := by
  unfold DFAutomaton.merge_equivalent_states at h
  cases heq : dfa.equivalent_states with
  | error e => rw [heq] at h; exact absurd h (by simp)
  | ok eq =>
      rw [heq] at h
      refine ⟨eq, rfl, ?_⟩
      simp only [Except.ok.injEq] at h
      subst h
      intro p hp t ht
      simp only [List.mem_map] at hp
      obtain ⟨q, hq, rfl⟩ := hp
      simp only [DFAutomaton.dropEquivTransitions, List.mem_filter,
        decide_eq_true_eq] at ht
      exact ht.2

/-- Witness for `c6_merge_drops_equivalent_pair_transitions` at the
repository's `test_merge_equivalent` automaton. -/
theorem c6_witness :
    ∃ eq, merge4DFA.equivalent_states = .ok eq ∧
      ∀ p ∈ merge4DFAmerged.states, ∀ t ∈ p.2.transitions,
        mkUnorderedPair p.2.id t.target ∉ eq :=
  c6_merge_drops_equivalent_pair_transitions merge4DFA merge4DFAmerged rfl

/-! ## Claim C4 -/

/-- A successful lookup's binding is in the list. -/
theorem lookup_mem {l : List (Nat × State)} {k : Nat} {v : State}
    (h : l.lookup k = some v) : (k, v) ∈ l := by
  induction l with
  | nil => simp [List.lookup] at h
  | cons p rest ih =>
      obtain ⟨a, b⟩ := p
      rw [List.lookup] at h
      by_cases hk : k = a
      · subst hk
        simp only [beq_self_eq_true, Option.some.injEq] at h
        subst h
        exact List.mem_cons_self _ _
      · simp only [beq_eq_false_iff_ne.mpr hk] at h
        exact List.mem_cons_of_mem _ (ih h)

namespace DFAutomaton

/-- The DFA determinism invariant: within each state, no letter belongs to
two different transitions' letter sets. -/
def deterministic (dfa : DFAutomaton) : Prop :=
  ∀ p ∈ dfa.states,
    List.Pairwise (fun t1 t2 => ∀ x ∈ t1.letters, x ∉ t2.letters)
      p.2.transitions

instance (dfa : DFAutomaton) : Decidable dfa.deterministic := by
  unfold deterministic
  infer_instance

/-- A sequence of `add_transition` calls, each acting on the automaton left
by the previous one (a failed call leaves it unchanged, as in the source the
transition is inserted only after all checks pass). -/
def applyAddTransitions (dfa : DFAutomaton)
    (ops : List (List Char × Nat × Nat)) : DFAutomaton :=
  ops.foldl (fun d op => (d.add_transition op.1 op.2.1 op.2.2).1) dfa

/-- A single `add_transition` call preserves the determinism invariant. -/
theorem deterministic_add_transition {dfa : DFAutomaton}
    (letters : List Char) (fromId toId : Nat) (h : dfa.deterministic) :
    (dfa.add_transition letters fromId toId).1.deterministic := by
  unfold add_transition
  split
  · exact h
  · cases hfrom : dfa.getState fromId with
    | none => simpa [hfrom] using h
    | some fromState =>
        cases hto : dfa.getState toId with
        | none => simpa [hfrom, hto] using h
        | some toState =>
            simp only [hfrom, hto]
            split
            · exact h
            · rename_i hclash
              intro p hp
              simp only [updateState, List.mem_map] at hp
              obtain ⟨q, hq, hpq⟩ := hp
              by_cases hid : q.1 = fromId
              · simp only [hid, if_true] at hpq
                subst hpq
                simp only
                rw [List.pairwise_append]
                refine ⟨h (fromId, fromState) (lookup_mem hfrom), by simp, ?_⟩
                intro t1 ht1 t2 ht2 x hx1
                simp only [List.mem_singleton] at ht2
                subst ht2
                simp only [List.any_eq_true, decide_eq_true_eq, not_exists,
                  not_and] at hclash
                intro hx2
                exact hclash x hx2 t1 ht1 hx1
              · simp only [hid, if_false] at hpq
                subst hpq
                exact h q hq

/-- Whatever the outcome, the state map after `add_state` is either unchanged
or extends the old one with the single fresh (transition-less) state. -/
theorem add_state_states (dfa : DFAutomaton) (id : Nat) (ini fin : Bool) :
    (dfa.add_state id ini fin).1.states = dfa.states ∨
      (dfa.add_state id ini fin).1.states =
        dfa.states ++ [(id, State.mk id [] ini fin)] := by
  unfold add_state
  rcases hget : dfa.getState id with _ | st
  · rcases hini2 : dfa.initialStateId with _ | i <;> cases ini <;> cases fin <;>
      simp [hini2]
  · simp

/-- `add_state` preserves the determinism invariant (the new state has no
transitions), whatever the outcome. -/
theorem deterministic_add_state {dfa : DFAutomaton}
    (id : Nat) (ini fin : Bool) (h : dfa.deterministic) :
    (dfa.add_state id ini fin).1.deterministic := by
  intro p hp
  rcases add_state_states dfa id ini fin with hs | hs <;> rw [hs] at hp
  · exact h p hp
  · rcases List.mem_append.mp hp with hp | hp
    · exact h p hp
    · simp only [List.mem_singleton] at hp
      subst hp
      simp

/-- Any sequence of `add_transition` calls preserves the determinism
invariant. -/
theorem deterministic_applyAddTransitions {dfa : DFAutomaton}
    (ops : List (List Char × Nat × Nat)) (h : dfa.deterministic) :
    (dfa.applyAddTransitions ops).deterministic := by
  induction ops generalizing dfa with
  | nil => exact h
  | cons op rest ih =>
      exact ih (deterministic_add_transition op.1 op.2.1 op.2.2 h)

/-- An `add_transition` whose letters clash with an existing transition of
the source state (and which passes the earlier checks) is rejected with
`NonDeterministicTransitionError` and leaves the automaton unchanged. -/
theorem add_transition_rejects_clash (dfa : DFAutomaton)
    (letters : List Char) (fromId toId : Nat) (fromState : State)
    (hword : is_word_on_alphabet letters dfa.alphabet = true)
    (hfrom : dfa.getState fromId = some fromState)
    (hto : (dfa.getState toId).isSome)
    (hclash : letters.any (fun letter =>
      fromState.transitions.any fun t => letter ∈ t.letters) = true) :
    dfa.add_transition letters fromId toId =
      (dfa, some .nonDeterministicTransition) := by
  obtain ⟨toState, hto⟩ := Option.isSome_iff_exists.mp hto
  unfold add_transition
  simp [hword, hfrom, hto, hclash]

/-- Under the determinism invariant, each state has at most one transition
matching a given letter. -/
theorem filter_length_le_one_of_pairwise {l : List Transition} {c : Char}
    (h : List.Pairwise (fun t1 t2 => ∀ x ∈ t1.letters, x ∉ t2.letters) l) :
    (l.filter fun t => decide (c ∈ t.letters)).length ≤ 1 := by
  induction l with
  | nil => simp
  | cons t ts ih =>
      rw [List.pairwise_cons] at h
      by_cases hc : c ∈ t.letters
      · have hnil : ts.filter (fun t => decide (c ∈ t.letters)) = [] := by
          rw [List.filter_eq_nil_iff]
          intro t' ht'
          simpa using h.1 t' ht' c hc
        simp [hc, hnil, List.filter_cons]
      · simp only [List.filter_cons, hc, decide_False, if_false]
        exact ih h.2

end DFAutomaton

/-- Claim C4: the DFA determinism invariant — no two transitions leaving one
state share a letter — holds for a fresh DFA, is preserved by `add_state` and
by any sequence of `add_transition` calls (successful or rejected), implies
that at most one transition of a state matches any letter (so `successor`
returns at most one target), and a violating `add_transition` is rejected at
the call with `NonDeterministicTransitionError`, leaving the automaton
unchanged. -/
theorem c4_determinism_invariant :
    (∀ alphabet, (DFAutomaton.new alphabet).deterministic) ∧
    (∀ (dfa : DFAutomaton) (id : Nat) (ini fin : Bool), dfa.deterministic →
      (dfa.add_state id ini fin).1.deterministic) ∧
    (∀ (dfa : DFAutomaton) (ops : List (List Char × Nat × Nat)),
      dfa.deterministic → (dfa.applyAddTransitions ops).deterministic) ∧
    (∀ (dfa : DFAutomaton), dfa.deterministic → ∀ p ∈ dfa.states, ∀ c : Char,
      (p.2.transitions.filter fun t => decide (c ∈ t.letters)).length ≤ 1) ∧
    (∀ (dfa : DFAutomaton) (letters : List Char) (fromId toId : Nat)
      (fromState : State),
      is_word_on_alphabet letters dfa.alphabet = true →
      dfa.getState fromId = some fromState →
      (dfa.getState toId).isSome →
      letters.any (fun letter =>
        fromState.transitions.any fun t => letter ∈ t.letters) = true →
      dfa.add_transition letters fromId toId =
        (dfa, some .nonDeterministicTransition)) := by
  refine ⟨?_, ?_, ?_, ?_, ?_⟩
  · intro alphabet p hp
    simp [DFAutomaton.new] at hp
  · intro dfa id ini fin h
    exact DFAutomaton.deterministic_add_state id ini fin h
  · intro dfa ops h
    exact DFAutomaton.deterministic_applyAddTransitions ops h
  · intro dfa h p hp c
    exact DFAutomaton.filter_length_le_one_of_pairwise (h p hp)
  · intro dfa letters fromId toId fromState hw hf ht hc
    exact DFAutomaton.add_transition_rejects_clash dfa letters fromId toId
      fromState hw hf ht hc

/-- Witness for `c4_determinism_invariant` at the parity DFA: the invariant
holds, is kept by a rejected duplicate-letter call, and that call is indeed
rejected with `NonDeterministicTransitionError`. -/
theorem c4_witness :
    parityDFA.deterministic ∧
      (parityDFA.applyAddTransitions [(['0'], 0, 1)]).deterministic ∧
      parityDFA.add_transition ['0'] 0 1 =
        (parityDFA, some .nonDeterministicTransition) := by
  have hdet : parityDFA.deterministic := by decide
  refine ⟨hdet, c4_determinism_invariant.2.2.1 parityDFA [(['0'], 0, 1)] hdet, ?_⟩
  exact c4_determinism_invariant.2.2.2.2 parityDFA ['0'] 0 1 _ (by decide) rfl
    (by decide) (by decide)

/-! ## Association-list lemmas shared by the remaining claims -/

/-- A key is present in an association list iff its lookup succeeds. -/
theorem lookup_isSome_iff {l : List (Nat × State)} {k : Nat} :
    (l.lookup k).isSome ↔ k ∈ l.map Prod.fst := by
  induction l with
  | nil => simp [List.lookup]
  | cons p rest ih =>
      obtain ⟨a, b⟩ := p
      rw [List.lookup]
      by_cases hk : k = a
      · subst hk
        simp
      · simp only [beq_eq_false_iff_ne.mpr hk]
        simp [ih, hk]

/-- Lookup of an absent key fails. -/
theorem lookup_eq_none_of_not_mem {l : List (Nat × State)} {k : Nat}
    (h : k ∉ l.map Prod.fst) : l.lookup k = none := by
  cases hl : l.lookup k with
  | none => rfl
  | some v =>
      exact absurd (lookup_isSome_iff.mp (by simp [hl])) h

/-- Lookup distributes over append, preferring the left list. -/
theorem lookup_append_of_none {l1 l2 : List (Nat × State)} {k : Nat}
    (h : l1.lookup k = none) : (l1 ++ l2).lookup k = l2.lookup k := by
  induction l1 with
  | nil => rfl
  | cons p rest ih =>
      obtain ⟨a, b⟩ := p
      rw [List.lookup] at h
      rw [List.cons_append, List.lookup]
      by_cases hk : k = a
      · subst hk
        simp at h
      · simp only [beq_eq_false_iff_ne.mpr hk] at h ⊢
        exact ih h

/-- A successful lookup in the left list wins over the appended one. -/
theorem lookup_append_left {l1 l2 : List (Nat × State)} {k : Nat} {v : State}
    (h : l1.lookup k = some v) : (l1 ++ l2).lookup k = some v := by
  induction l1 with
  | nil => simp [List.lookup] at h
  | cons p rest ih =>
      obtain ⟨a, b⟩ := p
      rw [List.lookup] at h
      rw [List.cons_append, List.lookup]
      by_cases hk : k = a
      · subst hk
        simpa using h
      · simp only [beq_eq_false_iff_ne.mpr hk] at h ⊢
        exact ih h

/-- Under distinct keys, the binding of a member is what lookup returns. -/
theorem lookup_eq_of_mem_nodup {l : List (Nat × State)} {k : Nat} {v : State}
    (hnd : (l.map Prod.fst).Nodup) (h : (k, v) ∈ l) : l.lookup k = some v := by
  induction l with
  | nil => simp at h
  | cons p rest ih =>
      obtain ⟨a, b⟩ := p
      simp only [List.map_cons, List.nodup_cons] at hnd
      rw [List.lookup]
      rcases List.mem_cons.mp h with h' | h'
      · rw [Prod.mk.injEq] at h'
        obtain ⟨h1, h2⟩ := h'
        subst h1
        subst h2
        simp
      · by_cases hk : k = a
        · subst hk
          have hmem : k ∈ rest.map Prod.fst :=
            List.mem_map.mpr ⟨(k, v), h', rfl⟩
          exact absurd hmem hnd.1
        · simp only [beq_eq_false_iff_ne.mpr hk]
          exact ih hnd.2 h'

namespace DFAutomaton

/-- `updateState` keeps the key sequence. -/
theorem updateState_map_fst (s : List (Nat × State)) (id : Nat) (st : State) :
    (updateState s id st).map Prod.fst = s.map Prod.fst := by
  unfold updateState
  induction s with
  | nil => rfl
  | cons p rest ih =>
      simp only [List.map_cons, List.map_map] at ih ⊢
      by_cases hp : p.1 = id <;> simp [hp, ih]

/-- `updateState` leaves other keys' bindings alone. -/
theorem lookup_updateState_ne (s : List (Nat × State)) (id : Nat) (st : State)
    {k : Nat} (hk : k ≠ id) : (updateState s id st).lookup k = s.lookup k := by
  induction s with
  | nil => rfl
  | cons p rest ih =>
      obtain ⟨a, b⟩ := p
      unfold updateState at ih ⊢
      simp only [List.map_cons]
      by_cases ha : a = id
      · subst ha
        rw [if_pos rfl, List.lookup, List.lookup]
        simp only [beq_eq_false_iff_ne.mpr hk]
        exact ih
      · rw [if_neg ha, List.lookup, List.lookup]
        by_cases hk2 : k = a
        · subst hk2
          simp
        · simp only [beq_eq_false_iff_ne.mpr hk2]
          exact ih

/-- `updateState` rebinds a present key to the new state. -/
theorem lookup_updateState_self (s : List (Nat × State)) (id : Nat) (st : State)
    (h : (s.lookup id).isSome) : (updateState s id st).lookup id = some st := by
  induction s with
  | nil => simp [List.lookup] at h
  | cons p rest ih =>
      obtain ⟨a, b⟩ := p
      rw [List.lookup] at h
      unfold updateState at ih ⊢
      simp only [List.map_cons]
      by_cases hk : id = a
      · subst hk
        rw [if_pos rfl, List.lookup]
        simp
      · rw [beq_eq_false_iff_ne.mpr hk] at h
        rw [if_neg (fun ha => hk ha.symm), List.lookup,
          beq_eq_false_iff_ne.mpr hk]
        exact ih h

end DFAutomaton

/-- If some transition of `l` matches `c`, the `successor` scan finds a
target. -/
theorem findSome?_isSome_of_exists {l : List Transition} {c : Char}
    (h : ∃ t ∈ l, c ∈ t.letters) :
    ∃ j, (l.findSome? fun t =>
      if c ∈ t.letters then some t.target else none) = some j := by
  induction l with
  | nil => simp at h
  | cons t ts ih =>
      rw [List.findSome?]
      by_cases hc : c ∈ t.letters
      · exact ⟨t.target, by simp [hc]⟩
      · simp only [hc, if_neg, if_false]
        rcases h with ⟨t', ht', hc'⟩
        rcases List.mem_cons.mp ht' with h | h
        · subst h
          exact absurd hc' hc
        · exact ih ⟨t', h, hc'⟩

/-! ## Claim C3 -/

/-- A state covers the alphabet when it has an outgoing transition for every
letter. -/
def coversAlphabet (alphabet : List Char) (st : State) : Prop :=
  ∀ l ∈ alphabet, ∃ t ∈ st.transitions, l ∈ t.letters

/-- The whole alphabet is a word on itself. -/
theorem is_word_on_alphabet_self (alphabet : List Char) :
    is_word_on_alphabet alphabet alphabet = true := by
  simp [is_word_on_alphabet]

namespace DFAutomaton

/-- A letter is missing for `st` iff it is an alphabet letter no transition
of `st` carries. -/
theorem mem_missingLetters {alphabet : List Char} {st : State} {l : Char} :
    l ∈ missingLetters alphabet st ↔
      l ∈ alphabet ∧ ∀ t ∈ st.transitions, l ∉ t.letters := by
  simp [missingLetters]

/-- No letter is missing for `st` iff `st` covers the alphabet. -/
theorem missingLetters_eq_nil_iff {alphabet : List Char} {st : State} :
    missingLetters alphabet st = [] ↔ coversAlphabet alphabet st := by
  rw [missingLetters, List.filter_eq_nil_iff]
  constructor
  · intro h l hl
    have := h l hl
    simpa using this
  · intro h l hl
    simpa using h l hl

/-- The hole-state id `sum(self._states.keys()) + 1` is fresh: every `Nat`
key is at most the sum of all keys. -/
theorem piId_not_mem (dfa : DFAutomaton) :
    dfa.stateIds.sum + 1 ∉ dfa.stateIds := by
  intro hmem
  have hle : dfa.stateIds.sum + 1 ≤ dfa.stateIds.sum :=
    List.single_le_sum (fun x _ => Nat.zero_le x) _ hmem
  omega

/-- Adding a fresh non-initial, non-final state succeeds and appends the
blank state. -/
theorem add_state_fresh_plain (dfa : DFAutomaton) (id : Nat)
    (hfresh : dfa.getState id = none) :
    dfa.add_state id false false =
      ({ dfa with states := dfa.states ++ [(id, State.mk id [] false false)] },
       none) := by
  unfold add_state
  rw [hfresh]
  rfl

/-- The automaton produced by a successful `add_transition`. -/
def withTransition (dfa : DFAutomaton) (fromId : Nat) (fromState : State)
    (letters : List Char) (toId : Nat) : DFAutomaton :=
  let fromState' := { fromState with
    transitions := fromState.transitions ++ [Transition.mk letters toId] }
  { dfa with states := updateState dfa.states fromId fromState' }

/-- `add_transition` succeeds — appending the transition to the source state
— when the letters are on the alphabet, both endpoints exist and no letter
clashes with an existing transition of the source. -/
theorem add_transition_ok (dfa : DFAutomaton) (letters : List Char)
    (fromId toId : Nat) (fromState : State)
    (hword : is_word_on_alphabet letters dfa.alphabet = true)
    (hfrom : dfa.getState fromId = some fromState)
    (hto : (dfa.getState toId).isSome)
    (hclash : (letters.any fun letter =>
      fromState.transitions.any fun t => letter ∈ t.letters) = false) :
    dfa.add_transition letters fromId toId =
      (withTransition dfa fromId fromState letters toId, none) := by
  obtain ⟨toState, hto⟩ := Option.isSome_iff_exists.mp hto
  unfold add_transition withTransition
  simp [hword, hfrom, hto, hclash]

/-- `withTransition` only rebinds the source state. -/
theorem withTransition_getState (dfa : DFAutomaton) (fromId : Nat)
    (fromState : State) (letters : List Char) (toId : Nat)
    (hfrom : dfa.getState fromId = some fromState) :
    (withTransition dfa fromId fromState letters toId).alphabet = dfa.alphabet ∧
    (withTransition dfa fromId fromState letters toId).stateIds = dfa.stateIds ∧
    (withTransition dfa fromId fromState letters toId).initialStateId =
      dfa.initialStateId ∧
    (withTransition dfa fromId fromState letters toId).getState fromId =
      some { fromState with transitions :=
        fromState.transitions ++ [Transition.mk letters toId] } ∧
    (∀ k, k ≠ fromId →
      (withTransition dfa fromId fromState letters toId).getState k =
        dfa.getState k) := by
  refine ⟨rfl, ?_, rfl, ?_, ?_⟩
  · exact updateState_map_fst dfa.states fromId _
  · refine lookup_updateState_self dfa.states fromId _ ?_
    unfold getState at hfrom
    simp [hfrom]
  · intro k hk
    exact lookup_updateState_ne dfa.states fromId _ hk

/-- An item of `transitions_to_add` comes from a state-map entry whose
missing-letter list it is, and that list is non-empty. -/
theorem transitionsToAdd_mem {dfa : DFAutomaton} {id : Nat} {ls : List Char}
    (h : (id, ls) ∈ dfa.transitionsToAdd) :
    ∃ st, (id, st) ∈ dfa.states ∧ ls = missingLetters dfa.alphabet st ∧
      ls ≠ [] := by
  unfold transitionsToAdd at h
  simp only [List.mem_filterMap] at h
  obtain ⟨p, hp, heq⟩ := h
  by_cases hmiss : (missingLetters dfa.alphabet p.2).isEmpty
  · simp [hmiss] at heq
  · simp only [hmiss, if_false, Option.some.injEq, Prod.mk.injEq,
      Bool.false_eq_true] at heq
    obtain ⟨h1, h2⟩ := heq
    refine ⟨p.2, ?_, h2.symm, ?_⟩
    · rw [← h1]
      exact hp
    · rw [← h2]
      intro hnil
      rw [hnil] at hmiss
      simp at hmiss

/-- A state-map entry with missing letters produces a
`transitions_to_add` item. -/
theorem transitionsToAdd_mem_of_missing {dfa : DFAutomaton} {id : Nat}
    {st : State} (h : (id, st) ∈ dfa.states)
    (hmiss : missingLetters dfa.alphabet st ≠ []) :
    (id, missingLetters dfa.alphabet st) ∈ dfa.transitionsToAdd := by
  unfold transitionsToAdd
  refine List.mem_filterMap.mpr ⟨(id, st), h, ?_⟩
  have : (missingLetters dfa.alphabet st).isEmpty = false := by
    cases hm : missingLetters dfa.alphabet st
    · exact absurd hm hmiss
    · rfl
  simp [this]

/-- The ids of `transitions_to_add` form a sublist of the state-map keys. -/
theorem transitionsToAdd_ids_sublist (dfa : DFAutomaton) :
    ((dfa.transitionsToAdd).map Prod.fst).Sublist dfa.stateIds := by
  unfold transitionsToAdd stateIds
  generalize dfa.states = l
  induction l with
  | nil => simp
  | cons p rest ih =>
      rw [List.filterMap_cons]
      by_cases hmiss : (missingLetters dfa.alphabet p.2).isEmpty
      · simp only [hmiss, if_true, List.map_cons]
        exact ih.cons p.1
      · simp only [hmiss, if_false, Bool.false_eq_true, List.map_cons]
        exact ih.cons₂ p.1

/-- `transitions_to_add` is empty iff every state covers the alphabet. -/
theorem transitionsToAdd_eq_nil_iff (dfa : DFAutomaton) :
    dfa.transitionsToAdd = [] ↔
      ∀ p ∈ dfa.states, coversAlphabet dfa.alphabet p.2 := by
  unfold transitionsToAdd
  rw [List.filterMap_eq_nil_iff]
  constructor
  · intro h p hp
    have := h p hp
    by_cases hmiss : (missingLetters dfa.alphabet p.2).isEmpty
    · rw [← missingLetters_eq_nil_iff]
      exact List.isEmpty_iff.mp hmiss
    · simp [hmiss] at this
  · intro h p hp
    have : missingLetters dfa.alphabet p.2 = [] :=
      missingLetters_eq_nil_iff.mpr (h p hp)
    simp [this]

/-- The chained `add_transition` calls of `complete` all succeed, rebinding
each deficient state to its extended transition list and touching nothing
else. -/
theorem addHoleTransitions_ok :
    ∀ (items : List (Nat × List Char)) (d : DFAutomaton) (piId : Nat),
    (items.map Prod.fst).Nodup →
    (∀ q ∈ items, q.1 ≠ piId) →
    (d.getState piId).isSome →
    (∀ q ∈ items, is_word_on_alphabet q.2 d.alphabet = true) →
    (∀ q ∈ items, ∃ st, d.getState q.1 = some st ∧
      (q.2.any fun letter =>
        st.transitions.any fun t => letter ∈ t.letters) = false) →
    ∃ dF, d.addHoleTransitions items piId = (dF, none) ∧
      dF.alphabet = d.alphabet ∧
      dF.stateIds = d.stateIds ∧
      dF.initialStateId = d.initialStateId ∧
      (∀ k, k ∉ items.map Prod.fst → dF.getState k = d.getState k) ∧
      (∀ q ∈ items, ∃ st, d.getState q.1 = some st ∧
        dF.getState q.1 = some { st with transitions :=
          st.transitions ++ [Transition.mk q.2 piId] }) := by
  intro items
  induction items with
  | nil =>
      intro d piId _ _ _ _ _
      exact ⟨d, rfl, rfl, rfl, rfl, fun k _ => rfl, by simp⟩
  | cons q rest ih =>
      intro d piId hnd hne hpi hword hok
      obtain ⟨id, ls⟩ := q
      obtain ⟨st, hst, hclash⟩ := hok (id, ls) (List.mem_cons_self _ _)
      have hstep := add_transition_ok d ls id piId st
        (hword (id, ls) (List.mem_cons_self _ _)) hst hpi hclash
      have heff := withTransition_getState d id st ls piId hst
      obtain ⟨halph, hids, hinit, hself, hother⟩ := heff
      set d' := withTransition d id st ls piId with hd'
      simp only [List.map_cons, List.nodup_cons] at hnd
      have hidrest : id ∉ rest.map Prod.fst := hnd.1
      have hne_pi : id ≠ piId := hne (id, ls) (List.mem_cons_self _ _)
      obtain ⟨dF, hrun, hFalph, hFids, hFinit, hFother, hFitems⟩ :=
        ih d' piId hnd.2
          (fun q hq => hne q (List.mem_cons_of_mem _ hq))
          (by rw [hother piId (fun h => hne_pi h.symm)]; exact hpi)
          (fun q hq => by
            rw [halph]
            exact hword q (List.mem_cons_of_mem _ hq))
          (fun q hq => by
            have hqne : q.1 ≠ id := by
              intro hqe
              exact hidrest (hqe ▸ List.mem_map.mpr ⟨q, hq, rfl⟩)
            rw [hother q.1 hqne]
            exact hok q (List.mem_cons_of_mem _ hq))
      refine ⟨dF, ?_, by rw [hFalph, halph], by rw [hFids, hids],
        by rw [hFinit, hinit], ?_, ?_⟩
      · rw [addHoleTransitions, hstep]
        exact hrun
      · intro k hk
        simp only [List.map_cons, List.mem_cons, not_or] at hk
        rw [hFother k hk.2, hother k hk.1]
      · intro q hq
        rcases List.mem_cons.mp hq with hq | hq
        · subst hq
          refine ⟨st, hst, ?_⟩
          rw [hFother id hidrest]
          exact hself
        · obtain ⟨st2, hst2, hF2⟩ := hFitems q hq
          have hqne : q.1 ≠ id := by
            intro hqe
            exact hidrest (hqe ▸ List.mem_map.mpr ⟨q, hq, rfl⟩)
          rw [hother q.1 hqne] at hst2
          exact ⟨st2, hst2, hF2⟩

/-- Appending a binding for a fresh key makes it found. -/
theorem getState_append_last (dfa : DFAutomaton) (id : Nat) (st : State)
    (hfresh : dfa.getState id = none) :
    ({ dfa with states := dfa.states ++ [(id, st)] } : DFAutomaton).getState id
      = some st := by
  unfold getState at hfresh ⊢
  rw [lookup_append_of_none hfresh]
  simp [List.lookup]

/-- Appending a binding leaves other keys' lookups alone. -/
theorem getState_append_ne (dfa : DFAutomaton) (id : Nat) (st : State)
    {k : Nat} (hk : k ≠ id) :
    ({ dfa with states := dfa.states ++ [(id, st)] } : DFAutomaton).getState k
      = dfa.getState k := by
  unfold getState
  cases hl : dfa.states.lookup k with
  | some v => exact lookup_append_left hl
  | none =>
      rw [lookup_append_of_none hl, List.lookup]
      simp [beq_eq_false_iff_ne.mpr hk, List.lookup]

/-- The missing letters are themselves a word on the alphabet. -/
theorem missingLetters_is_word (alphabet : List Char) (st : State) :
    is_word_on_alphabet (missingLetters alphabet st) alphabet = true := by
  rw [is_word_on_alphabet, List.all_eq_true]
  intro l hl
  simp [(mem_missingLetters.mp hl).1]

/-- A state whose lookup succeeds and which has a matching transition gives a
defined successor. -/
theorem successor_of_match {dfa : DFAutomaton} {id : Nat} {st : State}
    {l : Char} (hst : dfa.getState id = some st)
    (h : ∃ t ∈ st.transitions, l ∈ t.letters) :
    ∃ j, dfa.successor id l = .ok (some j) := by
  obtain ⟨j, hj⟩ := findSome?_isSome_of_exists h
  refine ⟨j, ?_⟩
  unfold successor
  rw [hst]
  simp [hj]

/-- On an automaton with distinct keys and at least one deficient state,
every internal call of `complete` succeeds; the result reports `False`
("was not complete") and every state of the result — the originals and the
hole state — has a matching transition for every alphabet letter. -/
theorem complete_not_complete_spec (dfa : DFAutomaton)
    (hnd : dfa.stateIds.Nodup) (hne : dfa.transitionsToAdd ≠ []) :
    ∃ dF : DFAutomaton,
      dfa.complete = ({ dF with completed := true }, .ok false) ∧
      dF.alphabet = dfa.alphabet ∧
      dF.stateIds = dfa.stateIds ++ [dfa.stateIds.sum + 1] ∧
      (∀ id ∈ dF.stateIds, ∀ l ∈ dfa.alphabet,
        ∃ st, dF.getState id = some st ∧ ∃ t ∈ st.transitions, l ∈ t.letters) := by
  have hempty : dfa.transitionsToAdd.isEmpty = false := by
    cases hm : dfa.transitionsToAdd
    · exact absurd hm hne
    · rfl
  have hpifresh : dfa.getState (dfa.stateIds.sum + 1) = none :=
    lookup_eq_none_of_not_mem (piId_not_mem dfa)
  have hstep1 := add_state_fresh_plain dfa (dfa.stateIds.sum + 1) hpifresh
  set piId := dfa.stateIds.sum + 1 with hpi_def
  set blank := State.mk piId [] false false with hblank
  set d1 : DFAutomaton := { dfa with states := dfa.states ++ [(piId, blank)] }
    with hd1
  have h1pi : d1.getState piId = some blank :=
    getState_append_last dfa piId blank hpifresh
  have h1ne : ∀ k, k ≠ piId → d1.getState k = dfa.getState k := fun k hk =>
    getState_append_ne dfa piId blank hk
  have hstep2 := add_transition_ok d1 dfa.alphabet piId piId blank
    (is_word_on_alphabet_self _) h1pi (by rw [h1pi]; rfl) (by simp [hblank])
  obtain ⟨h2alph, h2ids, h2init, h2pi, h2ne⟩ :=
    withTransition_getState d1 piId blank dfa.alphabet piId h1pi
  set d2 := d1.withTransition piId blank dfa.alphabet piId with hd2
  have h2k : ∀ k, k ≠ piId → d2.getState k = dfa.getState k := fun k hk =>
    (h2ne k hk).trans (h1ne k hk)
  have h2ids' : d2.stateIds = dfa.stateIds ++ [piId] := by
    rw [h2ids, hd1]
    simp [stateIds]
  have h2alph' : d2.alphabet = dfa.alphabet := h2alph
  have hids_sub : ((dfa.transitionsToAdd).map Prod.fst).Sublist dfa.stateIds :=
    transitionsToAdd_ids_sublist dfa
  have hids_nodup : ((dfa.transitionsToAdd).map Prod.fst).Nodup :=
    hids_sub.nodup hnd
  have hne_pi : ∀ q ∈ dfa.transitionsToAdd, q.1 ≠ piId := by
    intro q hq hqe
    have hmem : q.1 ∈ dfa.stateIds :=
      hids_sub.subset (List.mem_map.mpr ⟨q, hq, rfl⟩)
    rw [hqe] at hmem
    exact piId_not_mem dfa hmem
  have hword : ∀ q ∈ dfa.transitionsToAdd,
      is_word_on_alphabet q.2 d2.alphabet = true := by
    intro q hq
    obtain ⟨id, ls⟩ := q
    obtain ⟨st, hmem, hls, -⟩ := transitionsToAdd_mem hq
    rw [h2alph', hls]
    exact missingLetters_is_word dfa.alphabet st
  have hok : ∀ q ∈ dfa.transitionsToAdd, ∃ st, d2.getState q.1 = some st ∧
      (q.2.any fun letter =>
        st.transitions.any fun t => letter ∈ t.letters) = false := by
    intro q hq
    obtain ⟨id, ls⟩ := q
    obtain ⟨st, hmem, hls, -⟩ := transitionsToAdd_mem hq
    have hlook : dfa.getState id = some st := lookup_eq_of_mem_nodup hnd hmem
    refine ⟨st, ?_, ?_⟩
    · rw [h2k id (hne_pi (id, ls) hq), hlook]
    · rw [List.any_eq_false]
      intro l hl
      rw [hls] at hl
      obtain ⟨-, hnot⟩ := mem_missingLetters.mp hl
      intro hcontra
      rw [List.any_eq_true] at hcontra
      obtain ⟨t, ht, hlt⟩ := hcontra
      exact hnot t ht (by simpa using hlt)
  obtain ⟨dF, hrun, hFalph, hFids, hFinit, hFother, hFitems⟩ :=
    addHoleTransitions_ok dfa.transitionsToAdd d2 piId hids_nodup hne_pi
      (by rw [h2pi]; rfl) hword hok
  have hpi_notin : piId ∉ (dfa.transitionsToAdd).map Prod.fst := by
    intro hmem
    obtain ⟨q, hq, hq1⟩ := List.mem_map.mp hmem
    exact hne_pi q hq hq1
  refine ⟨dF, ?_, hFalph.trans h2alph', by rw [hFids, h2ids'], ?_⟩
  · simp only [complete, hempty, Bool.false_eq_true, if_false, ← hpi_def,
      hstep1, hstep2, hrun]
  · intro id hid l hl
    rw [hFids, h2ids'] at hid
    rcases List.mem_append.mp hid with hid | hid
    · by_cases hin : id ∈ (dfa.transitionsToAdd).map Prod.fst
      · obtain ⟨q, hq, hq1⟩ := List.mem_map.mp hin
        obtain ⟨id', ls⟩ := q
        simp only at hq1
        subst hq1
        obtain ⟨st2, hd2st, hFst⟩ := hFitems (id', ls) hq
        obtain ⟨st3, hmem3, hls3, -⟩ := transitionsToAdd_mem hq
        have hlook : dfa.getState id' = some st3 :=
          lookup_eq_of_mem_nodup hnd hmem3
        have hne' : id' ≠ piId := by
          intro hqe
          rw [hqe] at hid
          exact piId_not_mem dfa hid
        rw [h2k id' hne', hlook] at hd2st
        injection hd2st with hd2st
        subst hd2st
        refine ⟨_, hFst, ?_⟩
        by_cases hmiss : l ∈ ls
        · exact ⟨Transition.mk ls piId, by simp, hmiss⟩
        · rw [hls3] at hmiss
          have hcov : ∃ t ∈ st3.transitions, l ∈ t.letters := by
            by_contra hno
            push_neg at hno
            exact hmiss (mem_missingLetters.mpr ⟨hl, hno⟩)
          obtain ⟨t, ht, hlt⟩ := hcov
          exact ⟨t, by simp [ht], hlt⟩
      · have hne' : id ≠ piId := by
          intro hqe
          rw [hqe] at hid
          exact piId_not_mem dfa hid
        have hsome : (dfa.getState id).isSome := by
          rw [getState]
          exact lookup_isSome_iff.mpr hid
        obtain ⟨st, hst⟩ := Option.isSome_iff_exists.mp hsome
        have hFst : dF.getState id = some st := by
          rw [hFother id hin, h2k id hne', hst]
        have hmem : (id, st) ∈ dfa.states := lookup_mem hst
        have hmiss : missingLetters dfa.alphabet st = [] := by
          by_contra hnm
          exact hin (List.mem_map.mpr
            ⟨(id, missingLetters dfa.alphabet st),
             transitionsToAdd_mem_of_missing hmem hnm, rfl⟩)
        obtain ⟨t, ht, hlt⟩ := missingLetters_eq_nil_iff.mp hmiss l hl
        exact ⟨st, hFst, t, ht, hlt⟩
    · simp only [List.mem_singleton] at hid
      subst hid
      have hFpi : dF.getState piId =
          some { blank with transitions :=
            blank.transitions ++ [Transition.mk dfa.alphabet piId] } := by
        rw [hFother piId hpi_notin, h2pi]
      exact ⟨_, hFpi, Transition.mk dfa.alphabet piId, by simp [hblank], hl⟩

end DFAutomaton

namespace NFAutomaton

/-- `transitions_to_add` for the NFA variant of the shared
`FAutomaton.complete`. -/
def transitionsToAdd (nfa : NFAutomaton) : List (Nat × List Char) :=
  nfa.states.filterMap fun p =>
    let miss := missingLetters nfa.alphabet p.2
    if miss.isEmpty then none else some (p.1, miss)

/-- The hole-transition loop of `complete`, NFA variant. -/
def addHoleTransitions : NFAutomaton → List (Nat × List Char) → Nat →
    NFAutomaton × Option PyErr
  | nfa, [], _ => (nfa, none)
  | nfa, (stateId, letters) :: rest, piId =>
      match nfa.add_transition letters stateId piId with
      | (nfa', some e) => (nfa', some e)
      | (nfa', none) => addHoleTransitions nfa' rest piId

/-- `FAutomaton.complete`, NFA variant (virtual dispatch reaches the NFA's
`add_state`/`add_transition`, which have no determinism check). -/
def complete (nfa : NFAutomaton) : NFAutomaton × Except PyErr Bool :=
  let toAdd := nfa.transitionsToAdd
  if toAdd.isEmpty then ({ nfa with completed := true }, .ok true)
  else
    let piId := nfa.stateIds.sum + 1
    match nfa.add_state piId false false with
    | (nfa1, some e) => (nfa1, .error e)
    | (nfa1, none) =>
        match nfa1.add_transition nfa.alphabet piId piId with
        | (nfa2, some e) => (nfa2, .error e)
        | (nfa2, none) =>
            match nfa2.addHoleTransitions toAdd piId with
            | (nfa3, some e) => (nfa3, .error e)
            | (nfa3, none) => ({ nfa3 with completed := true }, .ok false)

/-- NFA analogue of `DFAutomaton.transitionsToAdd_mem`. -/
theorem nfa_transitionsToAdd_mem {nfa : NFAutomaton} {id : Nat} {ls : List Char}
    (h : (id, ls) ∈ nfa.transitionsToAdd) :
    ∃ st, (id, st) ∈ nfa.states ∧ ls = missingLetters nfa.alphabet st ∧
      ls ≠ [] := by
  unfold transitionsToAdd at h
  simp only [List.mem_filterMap] at h
  obtain ⟨p, hp, heq⟩ := h
  by_cases hmiss : (missingLetters nfa.alphabet p.2).isEmpty
  · simp [hmiss] at heq
  · simp only [hmiss, if_false, Option.some.injEq, Prod.mk.injEq,
      Bool.false_eq_true] at heq
    obtain ⟨h1, h2⟩ := heq
    refine ⟨p.2, ?_, h2.symm, ?_⟩
    · rw [← h1]
      exact hp
    · rw [← h2]
      intro hnil
      rw [hnil] at hmiss
      simp at hmiss

/-- NFA analogue of `DFAutomaton.transitionsToAdd_eq_nil_iff`. -/
theorem nfa_transitionsToAdd_eq_nil_iff (nfa : NFAutomaton) :
    nfa.transitionsToAdd = [] ↔
      ∀ p ∈ nfa.states, coversAlphabet nfa.alphabet p.2 := by
  unfold transitionsToAdd
  rw [List.filterMap_eq_nil_iff]
  constructor
  · intro h p hp
    have := h p hp
    by_cases hmiss : (missingLetters nfa.alphabet p.2).isEmpty
    · rw [← DFAutomaton.missingLetters_eq_nil_iff]
      exact List.isEmpty_iff.mp hmiss
    · simp [hmiss] at this
  · intro h p hp
    have : missingLetters nfa.alphabet p.2 = [] :=
      DFAutomaton.missingLetters_eq_nil_iff.mpr (h p hp)
    simp [this]

/-- Adding a fresh plain state to an NFA succeeds and appends it. -/
theorem nfa_add_state_fresh_plain (nfa : NFAutomaton) (id : Nat)
    (hfresh : nfa.getState id = none) :
    nfa.add_state id false false =
      ({ nfa with states := nfa.states ++ [(id, State.mk id [] false false)] },
       none) := by
  unfold add_state
  rw [hfresh]
  rfl

/-- NFA `add_transition` succeeds whenever the letters are on the alphabet
and both endpoints exist (there is no determinism check); it only rewrites
the source state's binding. -/
theorem add_transition_success (nfa : NFAutomaton) (letters : List Char)
    (fromId toId : Nat)
    (hword : is_word_on_alphabet letters nfa.alphabet = true)
    (hfrom : (nfa.getState fromId).isSome)
    (hto : (nfa.getState toId).isSome) :
    ∃ nf, nfa.add_transition letters fromId toId = (nf, none) ∧
      nf.alphabet = nfa.alphabet ∧ nf.stateIds = nfa.stateIds := by
  obtain ⟨fs, hfs⟩ := Option.isSome_iff_exists.mp hfrom
  obtain ⟨ts, hts⟩ := Option.isSome_iff_exists.mp hto
  unfold add_transition
  simp only [hword, hfs, hts, not_true, if_false, Bool.true_eq_false]
  refine ⟨_, rfl, rfl, ?_⟩
  exact DFAutomaton.updateState_map_fst nfa.states fromId _

/-- All hole transitions of the NFA variant of `complete` are added
successfully. -/
theorem addHoleTransitions_success :
    ∀ (items : List (Nat × List Char)) (n : NFAutomaton) (piId : Nat),
    (∀ q ∈ items, q.1 ∈ n.stateIds) →
    piId ∈ n.stateIds →
    (∀ q ∈ items, is_word_on_alphabet q.2 n.alphabet = true) →
    ∃ nF, n.addHoleTransitions items piId = (nF, none) := by
  intro items
  induction items with
  | nil =>
      intro n piId _ _ _
      exact ⟨n, rfl⟩
  | cons q rest ih =>
      intro n piId hin hpi hword
      obtain ⟨id, ls⟩ := q
      have hfrom : (n.getState id).isSome :=
        lookup_isSome_iff.mpr (hin (id, ls) (List.mem_cons_self _ _))
      have hpis : (n.getState piId).isSome := lookup_isSome_iff.mpr hpi
      obtain ⟨n', hstep, halph, hids⟩ := add_transition_success n ls id piId
        (hword (id, ls) (List.mem_cons_self _ _)) hfrom hpis
      obtain ⟨nF, hrun⟩ := ih n' piId
        (fun q hq => by rw [hids]; exact hin q (List.mem_cons_of_mem _ hq))
        (by rw [hids]; exact hpi)
        (fun q hq => by rw [halph]; exact hword q (List.mem_cons_of_mem _ hq))
      refine ⟨nF, ?_⟩
      rw [addHoleTransitions, hstep]
      exact hrun

end NFAutomaton

/-- `sum(keys) + 1` exceeds every member of a list of naturals. -/
theorem sum_succ_not_mem (l : List Nat) : l.sum + 1 ∉ l := by
  intro hmem
  have := List.single_le_sum (fun x (_ : x ∈ l) => Nat.zero_le x) _ hmem
  omega

/-- The NFA variant of `complete` returns normally, with `True` exactly when
every state already covered the alphabet. -/
theorem NFAutomaton.complete_returns_iff (nfa : NFAutomaton) :
    ∃ b, nfa.complete.2 = .ok b ∧
      (b = true ↔ ∀ p ∈ nfa.states, coversAlphabet nfa.alphabet p.2) := by
  by_cases hempty : nfa.transitionsToAdd.isEmpty
  · have htoAdd : nfa.transitionsToAdd = [] := List.isEmpty_iff.mp hempty
    have hcov := (NFAutomaton.nfa_transitionsToAdd_eq_nil_iff nfa).mp htoAdd
    refine ⟨true, ?_, ⟨fun _ => hcov, fun _ => rfl⟩⟩
    simp [NFAutomaton.complete, hempty]
  · have hne : nfa.transitionsToAdd ≠ [] := fun h => hempty (by simp [h])
    have hemptyf : nfa.transitionsToAdd.isEmpty = false := by
      cases hm : nfa.transitionsToAdd
      · exact absurd hm hne
      · rfl
    have hpifresh : nfa.getState (nfa.stateIds.sum + 1) = none :=
      lookup_eq_none_of_not_mem (sum_succ_not_mem nfa.stateIds)
    have hstep1 :=
      NFAutomaton.nfa_add_state_fresh_plain nfa (nfa.stateIds.sum + 1) hpifresh
    set piId := nfa.stateIds.sum + 1 with hpi
    set n1 : NFAutomaton := { nfa with
      states := nfa.states ++ [(piId, State.mk piId [] false false)] } with hn1
    have h1ids : n1.stateIds = nfa.stateIds ++ [piId] := by
      simp [hn1, NFAutomaton.stateIds]
    have h1alph : n1.alphabet = nfa.alphabet := rfl
    have hpimem : piId ∈ n1.stateIds := by
      rw [h1ids]
      simp
    obtain ⟨n2, hstep2, h2alph, h2ids⟩ :=
      NFAutomaton.add_transition_success n1 nfa.alphabet piId piId
        (is_word_on_alphabet_self _)
        (lookup_isSome_iff.mpr hpimem) (lookup_isSome_iff.mpr hpimem)
    have hforall : ∀ q ∈ nfa.transitionsToAdd, q.1 ∈ n2.stateIds := by
      intro q hq
      obtain ⟨id, ls⟩ := q
      obtain ⟨st, hmem, -, -⟩ := NFAutomaton.nfa_transitionsToAdd_mem hq
      rw [h2ids, h1ids]
      exact List.mem_append.mpr (.inl (List.mem_map.mpr ⟨(id, st), hmem, rfl⟩))
    have hwords : ∀ q ∈ nfa.transitionsToAdd,
        is_word_on_alphabet q.2 n2.alphabet = true := by
      intro q hq
      obtain ⟨id2, ls2⟩ := q
      obtain ⟨st, -, hls, -⟩ := NFAutomaton.nfa_transitionsToAdd_mem hq
      rw [h2alph, h1alph, hls]
      exact DFAutomaton.missingLetters_is_word _ _
    obtain ⟨nF, hrun⟩ := NFAutomaton.addHoleTransitions_success
      nfa.transitionsToAdd n2 piId hforall (by rw [h2ids]; exact hpimem) hwords
    have hncov : ¬ ∀ p ∈ nfa.states, coversAlphabet nfa.alphabet p.2 := by
      intro hcov
      obtain ⟨q, hq⟩ := List.exists_mem_of_ne_nil _ hne
      obtain ⟨id, ls⟩ := q
      obtain ⟨st, hmem, hls, hlsne⟩ := NFAutomaton.nfa_transitionsToAdd_mem hq
      apply hlsne
      rw [hls]
      exact DFAutomaton.missingLetters_eq_nil_iff.mpr (hcov (id, st) hmem)
    refine ⟨false, ?_,
      ⟨fun h => (Bool.false_ne_true h).elim, fun hcov => (hncov hcov).elim⟩⟩
    simp only [NFAutomaton.complete, hemptyf, Bool.false_eq_true, if_false,
      ← hpi, hstep1, hstep2, hrun]

/-- Claim C3: `complete()` returns normally and returns `True` iff, before
the call, every state had an outgoing transition for every alphabet letter
(both automaton variants; the DFA statement assumes the state ids are
distinct, as the construction API guarantees); and after a DFA's `complete()`
call, `successor` is defined for every state of the automaton and every
letter of the alphabet. -/
theorem c3_complete_spec :
    (∀ dfa : DFAutomaton, dfa.stateIds.Nodup →
      (∃ b, dfa.complete.2 = .ok b ∧
        (b = true ↔ ∀ p ∈ dfa.states, coversAlphabet dfa.alphabet p.2)) ∧
      (∀ id ∈ dfa.complete.1.stateIds, ∀ l ∈ dfa.alphabet,
        ∃ j, dfa.complete.1.successor id l = .ok (some j))) ∧
    (∀ nfa : NFAutomaton,
      ∃ b, nfa.complete.2 = .ok b ∧
        (b = true ↔ ∀ p ∈ nfa.states, coversAlphabet nfa.alphabet p.2)) := by
  constructor
  · intro dfa hnd
    by_cases hempty : dfa.transitionsToAdd.isEmpty
    · have htoAdd : dfa.transitionsToAdd = [] := List.isEmpty_iff.mp hempty
      have hcov := (DFAutomaton.transitionsToAdd_eq_nil_iff dfa).mp htoAdd
      have hcomp : dfa.complete = ({ dfa with completed := true }, .ok true) := by
        simp [DFAutomaton.complete, hempty]
      constructor
      · exact ⟨true, by rw [hcomp], ⟨fun _ => hcov, fun _ => rfl⟩⟩
      · intro id hid l hl
        rw [hcomp] at hid ⊢
        have hid' : id ∈ dfa.stateIds := hid
        obtain ⟨st, hst⟩ :=
          Option.isSome_iff_exists.mp (lookup_isSome_iff.mpr hid')
        have hmem := lookup_mem hst
        obtain ⟨t, ht, hlt⟩ := hcov (id, st) hmem l hl
        exact DFAutomaton.successor_of_match
          (show ({ dfa with completed := true } : DFAutomaton).getState id =
            some st from hst) ⟨t, ht, hlt⟩
    · have hne : dfa.transitionsToAdd ≠ [] := fun h => hempty (by simp [h])
      obtain ⟨dF, hcomp, hFalph, hFids, hFtotal⟩ :=
        DFAutomaton.complete_not_complete_spec dfa hnd hne
      constructor
      · refine ⟨false, by rw [hcomp], ?_⟩
        have hncov : ¬ ∀ p ∈ dfa.states, coversAlphabet dfa.alphabet p.2 := by
          intro hcov
          obtain ⟨q, hq⟩ := List.exists_mem_of_ne_nil _ hne
          obtain ⟨id, ls⟩ := q
          obtain ⟨st, hmem, hls, hlsne⟩ := DFAutomaton.transitionsToAdd_mem hq
          apply hlsne
          rw [hls]
          exact DFAutomaton.missingLetters_eq_nil_iff.mpr (hcov (id, st) hmem)
        exact ⟨fun h => (Bool.false_ne_true h).elim,
          fun hcov => (hncov hcov).elim⟩
      · intro id hid l hl
        rw [hcomp] at hid ⊢
        have hid' : id ∈ dF.stateIds := hid
        obtain ⟨st, hFst, t, ht, hlt⟩ := hFtotal id hid' l hl
        exact DFAutomaton.successor_of_match
          (show ({ dF with completed := true } : DFAutomaton).getState id =
            some st from hFst) ⟨t, ht, hlt⟩
  · exact NFAutomaton.complete_returns_iff

/-- Witness for `c3_complete_spec` at the repository's `test_complete` DFA
(which is incomplete, so `complete` reports `False` and synthesizes the hole
state). -/
theorem c3_witness :
    (∃ b, babDFA.complete.2 = .ok b ∧
      (b = true ↔ ∀ p ∈ babDFA.states, coversAlphabet babDFA.alphabet p.2)) ∧
    (∀ id ∈ babDFA.complete.1.stateIds, ∀ l ∈ babDFA.alphabet,
      ∃ j, babDFA.complete.1.successor id l = .ok (some j)) :=
  c3_complete_spec.1 babDFA (by decide)

/-! ## Claim C8 -/

namespace DFAutomaton

/-- Reachability from state `i` along stored transitions. -/
inductive Reach (dfa : DFAutomaton) (i : Nat) : Nat → Prop
  | refl : Reach dfa i i
  | step {j k : Nat} {st : State} {t : Transition} :
      Reach dfa i j → dfa.getState j = some st → t ∈ st.transitions →
      t.target = k → Reach dfa i k

end DFAutomaton

/-- A successful `successor` scan exits through some matching transition. -/
theorem findSome?_eq_some_target {l : List Transition} {c : Char} {j : Nat}
    (h : (l.findSome? fun t =>
      if c ∈ t.letters then some t.target else none) = some j) :
    ∃ t ∈ l, c ∈ t.letters ∧ t.target = j := by
  induction l with
  | nil => simp [List.findSome?] at h
  | cons t ts ih =>
      rw [List.findSome?] at h
      by_cases hc : c ∈ t.letters
      · simp only [hc, if_true, Option.some.injEq] at h
        exact ⟨t, List.mem_cons_self _ _, hc, h⟩
      · simp only [hc, if_false] at h
        obtain ⟨t', ht', hc', hj⟩ := ih h
        exact ⟨t', List.mem_cons_of_mem _ ht', hc', hj⟩

/-- Filtering the state map by a key predicate that holds for `k` does not
change `k`'s lookup. -/
theorem lookup_filter_key_mem {l : List (Nat × State)} {marked : List Nat}
    {k : Nat} (hk : k ∈ marked) :
    (l.filter fun q => decide (q.1 ∈ marked)).lookup k = l.lookup k := by
  induction l with
  | nil => rfl
  | cons p rest ih =>
      obtain ⟨a, b⟩ := p
      by_cases ha : a ∈ marked
      · rw [List.filter_cons_of_pos (by simpa using ha), List.lookup,
          List.lookup]
        by_cases hk2 : k = a
        · subst hk2
          simp
        · simp only [beq_eq_false_iff_ne.mpr hk2]
          exact ih
      · rw [List.filter_cons_of_neg (by simpa using ha), List.lookup]
        have hne : k ≠ a := fun he => ha (he ▸ hk)
        simp only [beq_eq_false_iff_ne.mpr hne]
        exact ih

/-- A duplicate-free list included in another is no longer than it. -/
theorem nodup_subset_length_le {l1 l2 : List Nat} (hnd : l1.Nodup)
    (hsub : l1 ⊆ l2) : l1.length ≤ l2.length := by
  calc l1.length = l1.toFinset.card := (List.toFinset_card_of_nodup hnd).symm
    _ ≤ l2.toFinset.card := Finset.card_le_card (fun x hx =>
        List.mem_toFinset.mpr (hsub (List.mem_toFinset.mp hx)))
    _ ≤ l2.length := l2.toFinset_card_le

namespace DFAutomaton

/-- What one transition scan of the BFS does: it succeeds when every target
is a key, appends the newly discovered targets (not waiting, not marked) to
the queue and prepends them to the waiting list, and afterwards every scanned
target is waiting or marked. -/
theorem bfsScan_spec (dfa : DFAutomaton) (marked : List Nat) :
    ∀ (ts : List Transition) (enq waiting : List Nat),
    (∀ t ∈ ts, t.target ∈ dfa.stateIds) →
    waiting.Nodup →
    ∃ newq,
      dfa.bfsScan marked ts enq waiting =
        .ok (enq ++ newq, newq.reverse ++ waiting) ∧
      (newq.reverse ++ waiting).Nodup ∧
      (∀ x ∈ newq, x ∈ dfa.stateIds ∧ x ∉ marked ∧ x ∉ waiting ∧
        ∃ t ∈ ts, t.target = x) ∧
      (∀ t ∈ ts, t.target ∈ newq ∨ t.target ∈ waiting ∨ t.target ∈ marked) := by
  intro ts
  induction ts with
  | nil =>
      intro enq waiting _ hnd
      exact ⟨[], by simp [bfsScan], by simpa using hnd, by simp, by simp⟩
  | cons t rest ih =>
      intro enq waiting hdom hnd
      have htdom : t.target ∈ dfa.stateIds := hdom t (List.mem_cons_self _ _)
      by_cases hnew : t.target ∉ waiting ∧ t.target ∉ marked
      · have hnd' : (t.target :: waiting).Nodup := by
          rw [List.nodup_cons]
          exact ⟨hnew.1, hnd⟩
        obtain ⟨newq', hrun, hndF, hprops, hcover⟩ := ih (enq ++ [t.target])
          (t.target :: waiting)
          (fun t' ht' => hdom t' (List.mem_cons_of_mem _ ht')) hnd'
        refine ⟨t.target :: newq', ?_, ?_, ?_, ?_⟩
        · rw [bfsScan, if_pos htdom, if_pos hnew, hrun]
          simp
        · rw [List.reverse_cons, List.append_assoc]
          exact hndF
        · intro x hx
          rcases List.mem_cons.mp hx with hx | hx
          · subst hx
            exact ⟨htdom, hnew.2, hnew.1, t, List.mem_cons_self _ _, rfl⟩
          · obtain ⟨h1, h2, h3, t', ht', h4⟩ := hprops x hx
            refine ⟨h1, h2, fun hw => h3 (List.mem_cons_of_mem _ hw),
              t', List.mem_cons_of_mem _ ht', h4⟩
        · intro t' ht'
          rcases List.mem_cons.mp ht' with ht' | ht'
          · subst ht'
            exact .inl (List.mem_cons_self _ _)
          · rcases hcover t' ht' with h | h | h
            · exact .inl (List.mem_cons_of_mem _ h)
            · rcases List.mem_cons.mp h with h | h
              · rw [h]
                exact .inl (List.mem_cons_self _ _)
              · exact .inr (.inl h)
            · exact .inr (.inr h)
      · push_neg at hnew
        have hold : ¬(t.target ∉ waiting ∧ t.target ∉ marked) := by
          intro hcon
          by_cases hw : t.target ∈ waiting
          · exact hcon.1 hw
          · exact hcon.2 (hnew hw)
        obtain ⟨newq', hrun, hndF, hprops, hcover⟩ := ih enq waiting
          (fun t' ht' => hdom t' (List.mem_cons_of_mem _ ht')) hnd
        refine ⟨newq', ?_, hndF, ?_, ?_⟩
        · rw [bfsScan, if_pos htdom, if_neg hold]
          exact hrun
        · intro x hx
          obtain ⟨h1, h2, h3, t', ht', h4⟩ := hprops x hx
          exact ⟨h1, h2, h3, t', List.mem_cons_of_mem _ ht', h4⟩
        · intro t' ht'
          rcases List.mem_cons.mp ht' with ht' | ht'
          · rw [ht']
            by_cases hw : t.target ∈ waiting
            · exact .inr (.inl hw)
            · exact .inr (.inr (hnew hw))
          · exact hcover t' ht'

end DFAutomaton

namespace DFAutomaton

/-- Correctness of the BFS loop of `reachable_part`: with the fuel accounting
for the pending queue and the not-yet-waiting states, the loop returns
normally; the final marked set contains only reachable states, contains the
initially marked and queued states, and is closed under transitions. -/
theorem bfsLoop_spec (dfa : DFAutomaton) (i : Nat)
    (hclosed : ∀ p ∈ dfa.states, ∀ t ∈ p.2.transitions,
      t.target ∈ dfa.stateIds) :
    ∀ (fuel : Nat) (queue marked waiting : List Nat),
    (∀ q ∈ queue, dfa.Reach i q) →
    (∀ q ∈ marked, dfa.Reach i q) →
    (∀ q ∈ queue, q ∈ dfa.stateIds) →
    waiting.Nodup →
    (∀ x ∈ waiting, x ∈ dfa.stateIds) →
    (∀ q ∈ marked, ∀ st, dfa.getState q = some st →
      ∀ t ∈ st.transitions, t.target ∈ waiting ∨ t.target ∈ marked) →
    (∀ x ∈ waiting, x ∈ marked ∨ x ∈ queue) →
    queue.length + dfa.states.length ≤ fuel + waiting.length →
    ∃ markedF, dfa.bfsLoop fuel queue marked waiting = .ok markedF ∧
      (∀ q ∈ markedF, dfa.Reach i q) ∧
      (∀ q ∈ marked, q ∈ markedF) ∧
      (∀ q ∈ queue, q ∈ markedF) ∧
      (∀ q ∈ markedF, ∀ st, dfa.getState q = some st →
        ∀ t ∈ st.transitions, t.target ∈ markedF) := by
  intro fuel
  induction fuel with
  | zero =>
      intro queue marked waiting hqr hmr hqd hwnd hwd hmc hwq hfuel
      cases queue with
      | nil =>
          refine ⟨marked, rfl, hmr, fun q hq => hq, by simp, ?_⟩
          intro q hq st hst t ht
          rcases hmc q hq st hst t ht with h | h
          · rcases hwq _ h with h2 | h2
            · exact h2
            · simp at h2
          · exact h
      | cons q rest =>
          exfalso
          have hwlen : waiting.length ≤ dfa.states.length := by
            have : waiting.length ≤ dfa.stateIds.length :=
              nodup_subset_length_le hwnd hwd
            simpa [stateIds] using this
          simp only [List.length_cons] at hfuel
          omega
  | succ fuel ih =>
      intro queue marked waiting hqr hmr hqd hwnd hwd hmc hwq hfuel
      cases queue with
      | nil =>
          refine ⟨marked, rfl, hmr, fun q hq => hq, by simp, ?_⟩
          intro q hq st hst t ht
          rcases hmc q hq st hst t ht with h | h
          · rcases hwq _ h with h2 | h2
            · exact h2
            · simp at h2
          · exact h
      | cons q rest =>
          obtain ⟨st, hst⟩ := Option.isSome_iff_exists.mp
            (lookup_isSome_iff.mpr (hqd q (List.mem_cons_self _ _)))
          have hstg : dfa.getState q = some st := hst
          have hqreach : dfa.Reach i q := hqr q (List.mem_cons_self _ _)
          obtain ⟨newq, hscan, hwnd', hprops, hcover⟩ :=
            bfsScan_spec dfa (if q ∈ marked then marked else marked ++ [q])
              st.transitions [] waiting
              (fun t ht => hclosed (q, st) (lookup_mem hst) t ht) hwnd
          have hmem' : ∀ x, x ∈ (if q ∈ marked then marked else marked ++ [q])
              ↔ x ∈ marked ∨ x = q := by
            intro x
            by_cases hqm : q ∈ marked
            · simp only [if_pos hqm]
              constructor
              · exact fun h => .inl h
              · rintro (h | rfl)
                · exact h
                · exact hqm
            · simp [if_neg hqm]
          have hmr' : ∀ x ∈ (if q ∈ marked then marked else marked ++ [q]),
              dfa.Reach i x := by
            intro x hx
            rcases (hmem' x).mp hx with h | rfl
            · exact hmr x h
            · exact hqreach
          have hnewq_reach : ∀ x ∈ newq, dfa.Reach i x := by
            intro x hx
            obtain ⟨-, -, -, t, ht, htar⟩ := hprops x hx
            exact .step hqreach hst ht htar
          obtain ⟨markedF, hrun, hFr, hFm, hFq, hFc⟩ :=
            ih (rest ++ newq) (if q ∈ marked then marked else marked ++ [q])
              (newq.reverse ++ waiting)
              (by
                intro x hx
                rcases List.mem_append.mp hx with hx | hx
                · exact hqr x (List.mem_cons_of_mem _ hx)
                · exact hnewq_reach x hx)
              hmr'
              (by
                intro x hx
                rcases List.mem_append.mp hx with hx | hx
                · exact hqd x (List.mem_cons_of_mem _ hx)
                · exact (hprops x hx).1)
              hwnd'
              (by
                intro x hx
                rcases List.mem_append.mp hx with hx | hx
                · exact (hprops x (List.mem_reverse.mp hx)).1
                · exact hwd x hx)
              (by
                intro x hx st' hst' t ht
                rcases (hmem' x).mp hx with hxm | rfl
                · rcases hmc x hxm st' hst' t ht with h | h
                  · exact .inl (List.mem_append.mpr (.inr h))
                  · exact .inr (((hmem' t.target).mpr) (.inl h))
                · rw [hstg] at hst'
                  injection hst' with hst'
                  subst hst'
                  rcases hcover t ht with h | h | h
                  · exact .inl (List.mem_append.mpr
                      (.inl (List.mem_reverse.mpr h)))
                  · exact .inl (List.mem_append.mpr (.inr h))
                  · exact .inr h)
              (by
                intro x hx
                rcases List.mem_append.mp hx with hx | hx
                · exact .inr (List.mem_append.mpr
                    (.inr (List.mem_reverse.mp hx)))
                · rcases hwq x hx with h | h
                  · exact .inl ((hmem' x).mpr (.inl h))
                  · rcases List.mem_cons.mp h with h | h
                    · exact .inl ((hmem' x).mpr (.inr h))
                    · exact .inr (List.mem_append.mpr (.inl h)))
              (by
                simp only [List.length_append, List.length_reverse,
                  List.length_cons] at hfuel ⊢
                omega)
          refine ⟨markedF, ?_, hFr, ?_, ?_, hFc⟩
          · rw [bfsLoop, hstg]
            simp only [hscan]
            simpa using hrun
          · intro x hx
            exact hFm x ((hmem' x).mpr (.inl hx))
          · intro x hx
            rcases List.mem_cons.mp hx with hx | hx
            · rw [hx]
              exact hFm q ((hmem' q).mpr (.inr rfl))
            · exact hFq x (List.mem_append.mpr (.inl hx))

end DFAutomaton

/-- A successor call that returns a target went through a matching
transition of the looked-up state. -/
theorem DFAutomaton.successor_ok_some {dfa : DFAutomaton} {cur j : Nat}
    {l : Char} (h : dfa.successor cur l = .ok (some j)) :
    ∃ st t, dfa.getState cur = some st ∧ t ∈ st.transitions ∧
      l ∈ t.letters ∧ t.target = j := by
  unfold successor at h
  cases hg : dfa.getState cur with
  | none =>
      rw [hg] at h
      exact absurd h (by simp)
  | some st =>
      rw [hg] at h
      simp only [Except.ok.injEq] at h
      obtain ⟨t, ht, hc, htar⟩ := findSome?_eq_some_target h
      exact ⟨st, t, rfl, ht, hc, htar⟩

/-- Claim C8 (as stated, `reachable_part` works on *every* DFA): refuted by
the code.  On a DFA with no initial state the BFS queue holds `None`, and the
first loop iteration evaluates `self._states[None]`, raising `KeyError`
instead of returning the (empty) reachable part. -/
theorem c8_reachable_part_raises_without_initial :
    (DFAutomaton.new ['a']).reachable_part = .error .keyError := rfl

/-- Claim C8, amended: for every DFA whose initial state is set, present in
the state map, and whose transitions all target present states,
`reachable_part()` returns a new automaton whose state map holds exactly the
states reachable from the initial state, and acceptance is unchanged for
every word.  (The embedding is pure, so the receiver is trivially
unchanged.) -/
theorem c8_reachable_part_spec (dfa : DFAutomaton) (i : Nat)
    (hinit : dfa.initialStateId = some i)
    (hmem : i ∈ dfa.stateIds)
    (hclosed : ∀ p ∈ dfa.states, ∀ t ∈ p.2.transitions,
      t.target ∈ dfa.stateIds) :
    ∃ d' : DFAutomaton, dfa.reachable_part = .ok d' ∧
      (∀ k, k ∈ d'.stateIds ↔ k ∈ dfa.stateIds ∧ dfa.Reach i k) ∧
      (∀ w, d'.accepts w = dfa.accepts w) := by
  obtain ⟨markedF, hloop, hFr, -, hFq, hFc⟩ :=
    DFAutomaton.bfsLoop_spec dfa i hclosed (dfa.states.length + 1) [i] [] []
      (by
        intro q hq
        simp only [List.mem_singleton] at hq
        rw [hq]
        exact .refl)
      (by simp)
      (by
        intro q hq
        simp only [List.mem_singleton] at hq
        rw [hq]
        exact hmem)
      List.nodup_nil
      (by simp)
      (by simp)
      (by simp)
      (by
        simp only [List.length_singleton, List.length_nil]
        omega)
  have hiF : i ∈ markedF := hFq i (List.mem_singleton.mpr rfl)
  have hcomplete : ∀ k, dfa.Reach i k → k ∈ markedF := by
    intro k hk
    induction hk with
    | refl => exact hiF
    | step hk hst ht htar ihk =>
        rw [← htar]
        exact hFc _ ihk _ hst _ ht
  set d' : DFAutomaton := { dfa with
    states := dfa.states.filter fun p => decide (p.1 ∈ markedF)
    finalStatesIds := dfa.finalStatesIds.filter fun x =>
      decide (x ∈ markedF ∨ x ∉ dfa.stateIds) } with hd'
  have hgets : ∀ cur ∈ markedF, d'.getState cur = dfa.getState cur := by
    intro cur hcur
    show (dfa.states.filter _).lookup cur = dfa.states.lookup cur
    exact lookup_filter_key_mem hcur
  refine ⟨d', ?_, ?_, ?_⟩
  · simp only [DFAutomaton.reachable_part, hinit, hloop]
    rw [hd', hinit]
  · intro k
    constructor
    · intro hk
      simp only [hd', DFAutomaton.stateIds, List.mem_map, List.mem_filter,
        decide_eq_true_eq] at hk
      obtain ⟨p, ⟨hp, hpm⟩, hpk⟩ := hk
      subst hpk
      exact ⟨List.mem_map.mpr ⟨p, hp, rfl⟩, hFr p.1 hpm⟩
    · rintro ⟨hk1, hk2⟩
      simp only [hd', DFAutomaton.stateIds, List.mem_map, List.mem_filter,
        decide_eq_true_eq]
      obtain ⟨p, hp, hpk⟩ := List.mem_map.mp hk1
      exact ⟨p, ⟨hp, hpk ▸ hcomplete k hk2⟩, hpk⟩
  · have hrunpre : ∀ (w : List Char) (cur : Nat), dfa.Reach i cur →
        d'.acceptsFrom cur w = dfa.acceptsFrom cur w := by
      intro w
      induction w with
      | nil =>
          intro cur hr
          rw [DFAutomaton.acceptsFrom, DFAutomaton.acceptsFrom,
            hgets cur (hcomplete cur hr)]
      | cons l rest ihw =>
          intro cur hr
          have hsucc : d'.successor cur l = dfa.successor cur l := by
            unfold DFAutomaton.successor
            rw [hgets cur (hcomplete cur hr)]
          rw [DFAutomaton.acceptsFrom, DFAutomaton.acceptsFrom, hsucc]
          cases hs : dfa.successor cur l with
          | error e => rfl
          | ok o =>
              cases o with
              | none => rfl
              | some j =>
                  obtain ⟨st, t, hst, ht, hc, htar⟩ :=
                    DFAutomaton.successor_ok_some hs
                  have hrj : dfa.Reach i j := .step hr hst ht htar
                  exact ihw j hrj
    intro w
    unfold DFAutomaton.accepts
    rw [hinit]
    exact hrunpre w i .refl

/-- Witness for `c8_reachable_part_spec` at the repository's
`test_reachable` DFA (state 2 unreachable). -/
theorem c8_witness :
    ∃ d' : DFAutomaton, reach3DFA.reachable_part = .ok d' ∧
      (∀ k, k ∈ d'.stateIds ↔ k ∈ reach3DFA.stateIds ∧ reach3DFA.Reach 0 k) ∧
      (∀ w, d'.accepts w = reach3DFA.accepts w) :=
  c8_reachable_part_spec reach3DFA 0 rfl (by decide) (by decide)

/-! ## Claim C9 (amended theorem) -/

/-- Folding `insert`s of targets collects exactly the targets. -/
theorem mem_foldr_insert_target {ts : List Transition} {x : Nat} :
    x ∈ ts.foldr (fun t acc => insert t.target acc) (∅ : Finset Nat) ↔
      ∃ t ∈ ts, t.target = x := by
  induction ts with
  | nil => simp
  | cons t rest ih =>
      constructor
      · intro h
        rcases Finset.mem_insert.mp h with h | h
        · exact ⟨t, List.mem_cons_self _ _, h.symm⟩
        · obtain ⟨t', ht', h'⟩ := ih.mp h
          exact ⟨t', List.mem_cons_of_mem _ ht', h'⟩
      · rintro ⟨t', ht', h'⟩
        rcases List.mem_cons.mp ht' with rfl | ht'
        · exact Finset.mem_insert.mpr (.inl h'.symm)
        · exact Finset.mem_insert.mpr (.inr (ih.mpr ⟨t', ht', h'⟩))

/-- Membership in one state's contribution to the NFA step. -/
theorem NFAutomaton.mem_letterTargets {nfa : NFAutomaton} {l : Char}
    {q x : Nat} (h : x ∈ nfa.letterTargets l q) :
    ∃ st, nfa.getState q = some st ∧ ∃ t ∈ st.transitions, t.target = x := by
  unfold letterTargets at h
  cases hg : nfa.getState q with
  | none =>
      rw [hg] at h
      simp at h
  | some st =>
      rw [hg] at h
      replace h : x ∈ (st.transitions.filter (fun t =>
          NFAutomaton.lettersEqEmptyString t.letters ||
            decide (l ∈ t.letters))).foldr
          (fun t acc => insert t.target acc) (∅ : Finset Nat) := h
      obtain ⟨t, ht, htar⟩ := mem_foldr_insert_target.mp h
      exact ⟨st, rfl, t, (List.mem_filter.mp ht).1, htar⟩

/-- Membership in one state's contribution to the NFA step, with the letter
condition of the passing filter retained: the witnessing transition's letter
set contains the stepped letter (the `_letters == ""` disjunct is always
false, see `lettersEqEmptyString`). -/
theorem NFAutomaton.mem_letterTargets_letter {nfa : NFAutomaton} {l : Char}
    {q x : Nat} (h : x ∈ nfa.letterTargets l q) :
    ∃ st, nfa.getState q = some st ∧
      ∃ t ∈ st.transitions, t.target = x ∧ l ∈ t.letters := by
  unfold NFAutomaton.letterTargets at h
  cases hg : nfa.getState q with
  | none =>
      rw [hg] at h
      simp at h
  | some st =>
      rw [hg] at h
      replace h : x ∈ (st.transitions.filter (fun t =>
          NFAutomaton.lettersEqEmptyString t.letters ||
            decide (l ∈ t.letters))).foldr
          (fun t acc => insert t.target acc) (∅ : Finset Nat) := h
      obtain ⟨t, ht, htar⟩ := mem_foldr_insert_target.mp h
      have hcond := (List.mem_filter.mp ht).2
      simp only [NFAutomaton.lettersEqEmptyString, Bool.false_or,
        decide_eq_true_eq] at hcond
      exact ⟨st, rfl, t, (List.mem_filter.mp ht).1, htar, hcond⟩

/-! ## Claims C1 and C10: the subset construction -/

namespace NFAutomaton

/-- The transition row the subset construction builds for the DFA state of
subset `S`, restricted to the letters already processed: one single-letter
transition per letter, in processing order, to the `new_states` index of the
step subset. -/
def detRowOn (nfa : NFAutomaton) (letters : List Char)
    (ns : List (Finset Nat)) (S : Finset Nat) : List Transition :=
  letters.map fun l => Transition.mk [l] (ns.indexOf (nfa.stepSet l S))

/-- The full row, after all alphabet letters were processed. -/
def detRow (nfa : NFAutomaton) (ns : List (Finset Nat)) (S : Finset Nat) :
    List Transition :=
  nfa.detRowOn nfa.alphabet ns S

end NFAutomaton

/-- `getD` at a valid index is a member (helper used by `detInv_congr`). -/
theorem List.getD_mem_of_lt (ns : List (Finset Nat)) {k : Nat}
    (hk : k < ns.length) : ns.getD k ∅ ∈ ns := by
  rw [List.getD_eq_getElem ns ∅ hk]
  exact List.getElem_mem hk

/-- What the worklist has built so far: the DFA's alphabet and initial id are
fixed, its keys are exactly the indices of the discovered subsets, and the
state at index `k` carries the finality flag of its subset and the
transitions `rowOf` assigns to its subset. -/
def detInv (nfa : NFAutomaton) (dfa : DFAutomaton) (ns : List (Finset Nat))
    (rowOf : Finset Nat → List Transition) : Prop :=
  dfa.alphabet = nfa.alphabet ∧
  dfa.initialStateId = some 0 ∧
  dfa.stateIds = List.range ns.length ∧
  ∀ k, k < ns.length → ∃ st, dfa.getState k = some st ∧
    st.final = !isdisjoint nfa.finalStatesIds (ns.getD k ∅) ∧
    st.transitions = rowOf (ns.getD k ∅)

/-- `detInv` only reads `rowOf` on discovered subsets. -/
theorem detInv_congr {nfa : NFAutomaton} {dfa : DFAutomaton}
    {ns : List (Finset Nat)} {rowOf rowOf' : Finset Nat → List Transition}
    (hrow : ∀ T ∈ ns, rowOf T = rowOf' T)
    (h : detInv nfa dfa ns rowOf) : detInv nfa dfa ns rowOf' := by
  obtain ⟨h1, h2, h3, h4⟩ := h
  refine ⟨h1, h2, h3, ?_⟩
  intro k hk
  obtain ⟨st, hst, hf, ht⟩ := h4 k hk
  refine ⟨st, hst, hf, ?_⟩
  rw [ht, hrow _ (List.getD_mem_of_lt ns hk)]

/-- `getD` at the position of a member gives the member back. -/
theorem getD_indexOf_self {ns : List (Finset Nat)} {S : Finset Nat}
    (h : S ∈ ns) : ns.getD (ns.indexOf S) ∅ = S := by
  rw [List.getD_eq_getElem _ _ (List.indexOf_lt_length.mpr h)]
  exact List.getElem_indexOf (List.indexOf_lt_length.mpr h)

/-- Under `Nodup`, a valid index whose entry is `S` is `S`'s position. -/
theorem indexOf_eq_of_getD {ns : List (Finset Nat)} {S : Finset Nat} {k : Nat}
    (hnd : ns.Nodup) (hk : k < ns.length) (hS : ns.getD k ∅ = S) :
    k = ns.indexOf S := by
  have hmem : S ∈ ns := hS ▸ List.getD_mem_of_lt ns hk
  have hlt := List.indexOf_lt_length.mpr hmem
  have hg : ns[k] = ns[ns.indexOf S] := by
    rw [List.getElem_indexOf hlt, ← hS, List.getD_eq_getElem _ _ hk]
  exact (List.Nodup.getElem_inj_iff hnd).mp hg

namespace NFAutomaton

/-- Extending `new_states` does not change the rows built so far, as long as
their step subsets were already discovered. -/
theorem detRowOn_append (nfa : NFAutomaton) {done : List Char}
    {ns ext : List (Finset Nat)} {S : Finset Nat}
    (h : ∀ l ∈ done, nfa.stepSet l S ∈ ns) :
    nfa.detRowOn done (ns ++ ext) S = nfa.detRowOn done ns S := by
  unfold detRowOn
  apply List.map_congr_left
  intro l hl
  rw [List.indexOf_append_of_mem (h l hl)]

/-- The guarded step call succeeds on subsets of present states. -/
theorem get_reachable_states_ok (nfa : NFAutomaton) {S : Finset Nat}
    (h : ∀ q ∈ S, q ∈ nfa.stateIds) (l : Char) :
    nfa.get_reachable_states l S = .ok (nfa.stepSet l S) := by
  unfold get_reachable_states
  have hg : ∀ q ∈ S, (nfa.getState q).isSome = true := fun q hq =>
    lookup_isSome_iff.mpr (h q hq)
  rw [if_pos hg]

/-- The step subset only holds present states (targets of stored
transitions). -/
theorem stepSet_closed (nfa : NFAutomaton)
    (hclosed : ∀ p ∈ nfa.states, ∀ t ∈ p.2.transitions,
      t.target ∈ nfa.stateIds)
    {S : Finset Nat} (l : Char) :
    ∀ x ∈ nfa.stepSet l S, x ∈ nfa.stateIds := by
  intro x hx
  obtain ⟨q, hq, hqx⟩ := Finset.mem_biUnion.mp hx
  obtain ⟨st, hst, t, ht, htar⟩ := NFAutomaton.mem_letterTargets hqx
  exact htar ▸ hclosed (q, st) (lookup_mem hst) t ht

/-- The NFA acceptance loop, on subsets of present states, computes the
fold of the step function and tests the final intersection. -/
theorem acceptsFrom_ok (nfa : NFAutomaton)
    (hclosed : ∀ p ∈ nfa.states, ∀ t ∈ p.2.transitions,
      t.target ∈ nfa.stateIds) :
    ∀ (w : List Char) (S : Finset Nat), (∀ q ∈ S, q ∈ nfa.stateIds) →
    nfa.acceptsFrom S w =
      .ok (!isdisjoint (w.foldl (fun T l => nfa.stepSet l T) S)
        nfa.finalStatesIds) := by
  intro w
  induction w with
  | nil =>
      intro S hS
      rfl
  | cons l rest ih =>
      intro S hS
      rw [acceptsFrom, get_reachable_states_ok nfa hS l]
      have := ih (nfa.stepSet l S) (nfa.stepSet_closed hclosed l)
      simpa using this

end NFAutomaton

/-- `getD` reads the appended element at the old length. -/
theorem getD_append_length (ns : List (Finset Nat)) (R : Finset Nat) :
    (ns ++ [R]).getD ns.length ∅ = R := by
  rw [List.getD_eq_getElem _ _ (by simp)]
  simp

/-- `new_states.index` of a subset appended to the end (Python's
`list.index` after `append`) is the old length, when the subset is new. -/
theorem indexOf_append_new {ns : List (Finset Nat)} {R : Finset Nat}
    (h : R ∉ ns) : (ns ++ [R]).indexOf R = ns.length := by
  induction ns with
  | nil => simp [List.indexOf_cons_self]
  | cons a rest ih =>
      have hne : a ≠ R := fun he => h (he ▸ List.mem_cons_self a rest)
      rw [List.cons_append, List.indexOf_cons_ne _ hne,
        ih (fun hm => h (List.mem_cons_of_mem a hm))]
      rfl

namespace DFAutomaton

/-- A successful non-initial `add_state` at a fresh id, with the final flag
free (generalizes `add_state_fresh_plain`). -/
theorem add_state_fresh (dfa : DFAutomaton) (id : Nat) (fin : Bool)
    (hfresh : dfa.getState id = none) :
    dfa.add_state id false fin =
      ({ dfa with
          states := dfa.states ++ [(id, State.mk id [] false fin)],
          finalStatesIds := if fin then dfa.finalStatesIds ++ [id]
            else dfa.finalStatesIds }, none) := by
  unfold add_state
  rw [hfresh]
  cases fin <;> rfl

/-- The very first `add_state(0, True, f)` on a fresh DFA, as performed by
`determinized`. -/
theorem add_state_new_initial (A : List Char) (f : Bool) :
    (DFAutomaton.new A).add_state 0 true f =
      ({ alphabet := A,
         states := [(0, State.mk 0 [] true f)],
         initialStateId := some 0,
         finalStatesIds := if f then [0] else [],
         completed := false }, none) := by
  cases f <;> rfl

end DFAutomaton

/-- A duplicate-free list of subsets of a finite universe is no longer than
the universe's powerset (the textbook bound on the subset construction). -/
theorem nodup_subsets_length_le {ns : List (Finset Nat)} {U : Finset Nat}
    (hnd : ns.Nodup) (hsub : ∀ T ∈ ns, T ⊆ U) :
    ns.length ≤ 2 ^ U.card := by
  have h1 : ns.toFinset ⊆ U.powerset := by
    intro T hT
    rw [Finset.mem_powerset]
    exact hsub T (List.mem_toFinset.mp hT)
  calc ns.length = ns.toFinset.card := (List.toFinset_card_of_nodup hnd).symm
    _ ≤ U.powerset.card := Finset.card_le_card h1
    _ = 2 ^ U.card := Finset.card_powerset U

namespace NFAutomaton

/-- Processing one more letter appends exactly one single-letter transition
to the row under construction. -/
theorem detRowOn_snoc (nfa : NFAutomaton) (done : List Char) (l : Char)
    (ns : List (Finset Nat)) (S : Finset Nat) :
    nfa.detRowOn (done ++ [l]) ns S =
      nfa.detRowOn done ns S ++
        [Transition.mk [l] (ns.indexOf (nfa.stepSet l S))] := by
  unfold detRowOn
  rw [List.map_append]
  rfl

/-- A letter not yet processed clashes with no transition of the row built so
far (the determinism precheck of `add_transition` passes). -/
theorem detRowOn_no_clash {nfa : NFAutomaton} {done : List Char} {l : Char}
    {ns : List (Finset Nat)} {S : Finset Nat} (hl : l ∉ done) :
    (([l] : List Char).any fun letter =>
      (nfa.detRowOn done ns S).any fun t => letter ∈ t.letters) = false := by
  simp only [List.any_cons, List.any_nil, Bool.or_false]
  rw [List.any_eq_false]
  intro t ht
  simp only [detRowOn, List.mem_map] at ht
  obtain ⟨a, ha, rfl⟩ := ht
  simp only [List.mem_singleton, decide_eq_true_eq]
  exact fun he => hl (he ▸ ha)

/-- A constructed row satisfies the DFA determinism relation: distinct
transitions carry disjoint (singleton) letter sets. -/
theorem detRowOn_pairwise (nfa : NFAutomaton) {letters : List Char}
    (hnd : letters.Nodup) (ns : List (Finset Nat)) (S : Finset Nat) :
    List.Pairwise (fun t1 t2 => ∀ x ∈ t1.letters, x ∉ t2.letters)
      (nfa.detRowOn letters ns S) := by
  unfold detRowOn
  rw [List.pairwise_map]
  refine hnd.imp ?_
  intro a b hab x hx1 hx2
  simp only [List.mem_singleton] at hx1 hx2
  exact hab (hx1 ▸ hx2 ▸ rfl)

/-- The `successor` scan over a constructed row finds the transition of the
queried letter. -/
theorem findSome?_detRowOn {nfa : NFAutomaton} {letters : List Char}
    {ns : List (Finset Nat)} {T : Finset Nat} {l : Char} (hl : l ∈ letters) :
    ((nfa.detRowOn letters ns T).findSome? fun t =>
        if l ∈ t.letters then some t.target else none) =
      some (ns.indexOf (nfa.stepSet l T)) := by
  induction letters with
  | nil => cases hl
  | cons a rest ih =>
      rw [detRowOn, List.map_cons, List.findSome?_cons]
      by_cases hla : l = a
      · subst hla
        simp
      · have : (if l ∈ (Transition.mk [a] (ns.indexOf (nfa.stepSet a T))).letters
            then some (Transition.mk [a] (ns.indexOf (nfa.stepSet a T))).target
            else none) = none := by
          simp [hla]
        rw [this]
        exact ih (List.mem_of_ne_of_mem hla hl)

/-- A row holds no transition for a letter outside its processed list. -/
theorem detRowOn_filter_nil {nfa : NFAutomaton} {letters : List Char}
    {ns : List (Finset Nat)} {T : Finset Nat} {l : Char} (hl : l ∉ letters) :
    (nfa.detRowOn letters ns T).filter (fun t => decide (l ∈ t.letters)) = [] := by
  rw [List.filter_eq_nil_iff]
  intro t ht
  simp only [detRowOn, List.mem_map] at ht
  obtain ⟨a, ha, rfl⟩ := ht
  simp only [List.mem_singleton, decide_eq_true_eq]
  exact fun he => hl (he ▸ ha)

/-- Each processed letter labels exactly one transition of the row. -/
theorem detRowOn_filter_one {nfa : NFAutomaton} {letters : List Char}
    {ns : List (Finset Nat)} {T : Finset Nat} {l : Char}
    (hnd : letters.Nodup) (hl : l ∈ letters) :
    ((nfa.detRowOn letters ns T).filter
      (fun t => decide (l ∈ t.letters))).length = 1 := by
  induction letters with
  | nil => cases hl
  | cons a rest ih =>
      rw [List.nodup_cons] at hnd
      rw [detRowOn, List.map_cons]
      by_cases hla : l = a
      · subst hla
        rw [List.filter_cons_of_pos (by simp)]
        have : nfa.detRowOn rest ns T = List.map
            (fun l => Transition.mk [l] (ns.indexOf (nfa.stepSet l T))) rest := rfl
        rw [← this, detRowOn_filter_nil hnd.1]
        rfl
      · rw [List.filter_cons_of_neg (by simp [hla])]
        exact ih hnd.2 (List.mem_of_ne_of_mem hla hl)

end NFAutomaton

/-- A successful `add_transition` out of the state of subset `S` extends that
state's row and leaves the rest of the invariant intact. -/
theorem detInv_withTransition {nfa : NFAutomaton} {dfa : DFAutomaton}
    {ns : List (Finset Nat)} {rowOf : Finset Nat → List Transition}
    {S : Finset Nat} {stS : State} (letters : List Char) (toId : Nat)
    (hnd : ns.Nodup) (hS : S ∈ ns)
    (hstS : dfa.getState (ns.indexOf S) = some stS)
    (hinv : detInv nfa dfa ns rowOf) :
    detInv nfa (dfa.withTransition (ns.indexOf S) stS letters toId) ns
      (fun T => if T = S then rowOf S ++ [Transition.mk letters toId]
        else rowOf T) := by
  obtain ⟨h1, h2, h3, h4⟩ := hinv
  obtain ⟨hal, hsids, hini, hself, hother⟩ :=
    DFAutomaton.withTransition_getState dfa (ns.indexOf S) stS letters toId hstS
  refine ⟨hal.trans h1, hini.trans h2, hsids.trans h3, ?_⟩
  intro k hk
  by_cases hkS : k = ns.indexOf S
  · subst hkS
    have hgd : ns.getD (ns.indexOf S) ∅ = S := getD_indexOf_self hS
    obtain ⟨st, hst, hf, ht⟩ := h4 _ hk
    rw [hstS] at hst
    obtain rfl : stS = st := Option.some.injEq _ _ ▸ hst
    refine ⟨_, hself, hf, ?_⟩
    have hrow : stS.transitions = rowOf S := by rw [ht, hgd]
    have hgoal : (fun T => if T = S then rowOf S ++ [Transition.mk letters toId]
        else rowOf T) (ns.getD (List.indexOf S ns) ∅) =
        rowOf S ++ [Transition.mk letters toId] := by
      rw [hgd]
      simp
    rw [hgoal]
    show stS.transitions ++ [Transition.mk letters toId] = _
    rw [hrow]
  · obtain ⟨st, hst, hf, ht⟩ := h4 k hk
    refine ⟨st, (hother k hkS).trans hst, hf, ?_⟩
    have hTS : ns.getD k ∅ ≠ S := fun he => hkS (indexOf_eq_of_getD hnd hk he)
    simp only [if_neg hTS]
    exact ht

/-- Discovering a new subset: `add_state` succeeds at the next free index and
extends the invariant with an empty row for the new subset. -/
theorem detInv_add_state {nfa : NFAutomaton} {dfa : DFAutomaton}
    {ns : List (Finset Nat)} {rowOf : Finset Nat → List Transition}
    {R : Finset Nat} (hRnew : R ∉ ns)
    (hinv : detInv nfa dfa ns rowOf) :
    (dfa.add_state ns.length false (!isdisjoint nfa.finalStatesIds R)).2 =
      none ∧
    detInv nfa
      (dfa.add_state ns.length false (!isdisjoint nfa.finalStatesIds R)).1
      (ns ++ [R]) (fun T => if T = R then [] else rowOf T) := by
  obtain ⟨h1, h2, h3, h4⟩ := hinv
  have hfresh : dfa.getState ns.length = none := by
    apply lookup_eq_none_of_not_mem
    show ns.length ∉ dfa.stateIds
    rw [h3, List.mem_range]
    exact lt_irrefl _
  rw [DFAutomaton.add_state_fresh dfa ns.length _ hfresh]
  refine ⟨rfl, h1, h2, ?_, ?_⟩
  · show (dfa.states ++ [(ns.length, _)]).map Prod.fst = _
    rw [List.map_append]
    show dfa.stateIds ++ [ns.length] = _
    rw [h3, ← List.range_succ]
    simp
  · intro k hk
    rw [List.length_append, List.length_singleton] at hk
    by_cases hkl : k < ns.length
    · obtain ⟨st, hst, hf, ht⟩ := h4 k hkl
      have hget : (dfa.states ++
          [(ns.length, State.mk ns.length [] false
            (!isdisjoint nfa.finalStatesIds R))]).lookup k = some st :=
        lookup_append_left hst
      refine ⟨st, hget, ?_, ?_⟩
      · rw [List.getD_append _ _ _ _ hkl]
        exact hf
      · rw [List.getD_append _ _ _ _ hkl]
        have hTR : ns.getD k ∅ ≠ R :=
          fun he => hRnew (he ▸ List.getD_mem_of_lt ns hkl)
        simp only [if_neg hTR]
        exact ht
    · obtain rfl : k = ns.length := by omega
      have hget : (dfa.states ++
          [(ns.length, State.mk ns.length [] false
            (!isdisjoint nfa.finalStatesIds R))]).lookup ns.length =
          some (State.mk ns.length [] false
            (!isdisjoint nfa.finalStatesIds R)) := by
        rw [lookup_append_of_none hfresh]
        simp [List.lookup]
      refine ⟨_, hget, ?_, ?_⟩
      · rw [getD_append_length]
      · rw [getD_append_length]
        simp

/-- The letter loop of `determinized`, specified.  Starting from a consistent
partial row for the dequeued subset `S` (letters `done` already processed,
`ls` remaining, pending subsets `pend` still rowless), the loop returns
normally, appends the newly discovered step subsets of `S` to both
`new_states` and the enqueue accumulator, and completes `S`'s row, preserving
every component of the invariant. -/
theorem determinizedStep_spec (nfa : NFAutomaton)
    (hclosed : ∀ p ∈ nfa.states, ∀ t ∈ p.2.transitions,
      t.target ∈ nfa.stateIds)
    (halpha : nfa.alphabet.Nodup) :
    ∀ (ls done : List Char) (dfa : DFAutomaton)
      (ns enq pend : List (Finset Nat)) (S : Finset Nat),
    nfa.alphabet = done ++ ls →
    ns.Nodup →
    (∀ T ∈ ns, ∀ q ∈ T, q ∈ nfa.stateIds) →
    S ∈ ns →
    S ∉ pend →
    (∀ l ∈ done, nfa.stepSet l S ∈ ns) →
    (∀ T ∈ ns, T ∉ pend → T ≠ S → ∀ l ∈ nfa.alphabet,
      nfa.stepSet l T ∈ ns) →
    detInv nfa dfa ns (fun T => if T = S then nfa.detRowOn done ns S
      else if T ∈ pend then [] else nfa.detRow ns T) →
    ∃ (dfa' : DFAutomaton) (nsNew : List (Finset Nat)),
      nfa.determinizedStep ls dfa ns enq S =
        .ok (dfa', ns ++ nsNew, enq ++ nsNew) ∧
      (ns ++ nsNew).Nodup ∧
      (∀ T ∈ ns ++ nsNew, ∀ q ∈ T, q ∈ nfa.stateIds) ∧
      (∀ l ∈ done ++ ls, nfa.stepSet l S ∈ ns ++ nsNew) ∧
      detInv nfa dfa' (ns ++ nsNew)
        (fun T => if T = S then nfa.detRowOn (done ++ ls) (ns ++ nsNew) S
          else if T ∈ pend ++ nsNew then [] else
            nfa.detRow (ns ++ nsNew) T) := by
  intro ls
  induction ls with
  | nil =>
      intro done dfa ns enq pend S hAeq hnd hsub hS hSp hdone hCL hinv
      refine ⟨dfa, [], ?_⟩
      simp only [List.append_nil]
      exact ⟨rfl, hnd, hsub, hdone, hinv⟩
  | cons l rest ih =>
      intro done dfa ns enq pend S hAeq hnd hsub hS hSp hdone hCL hinv
      have hlmem : l ∈ nfa.alphabet := by
        rw [hAeq]
        exact List.mem_append_right _ (List.mem_cons_self _ _)
      have hldone : l ∉ done := by
        have hnd2 := hAeq ▸ halpha
        rw [List.nodup_append] at hnd2
        exact fun hld => hnd2.2.2 hld (List.mem_cons_self _ _)
      have hstep : nfa.get_reachable_states l S = .ok (nfa.stepSet l S) :=
        nfa.get_reachable_states_ok (hsub S hS) l
      have hRsub : ∀ q ∈ nfa.stepSet l S, q ∈ nfa.stateIds :=
        nfa.stepSet_closed hclosed l
      have h1 := hinv.1
      have h4 := hinv.2.2.2
      have hidxS : ns.indexOf S < ns.length := List.indexOf_lt_length.mpr hS
      have hgdS : ns.getD (ns.indexOf S) ∅ = S := getD_indexOf_self hS
      obtain ⟨stS, hstS, hfS, htS⟩ := h4 _ hidxS
      have htS' : stS.transitions = nfa.detRowOn done ns S := by
        rw [htS, hgdS]
        simp
      by_cases hR : nfa.stepSet l S ∈ ns
      · -- the step subset was already discovered: only a transition is added
        have hword : is_word_on_alphabet [l] dfa.alphabet = true := by
          simp [is_word_on_alphabet, h1, hlmem]
        have hto : (dfa.getState (ns.indexOf (nfa.stepSet l S))).isSome := by
          obtain ⟨stR, hstR, _, _⟩ := h4 _ (List.indexOf_lt_length.mpr hR)
          simp [hstR]
        have hclash : (([l] : List Char).any fun letter =>
            stS.transitions.any fun t => letter ∈ t.letters) = false := by
          rw [htS']
          exact NFAutomaton.detRowOn_no_clash hldone
        have htr := DFAutomaton.add_transition_ok dfa [l] (ns.indexOf S)
          (ns.indexOf (nfa.stepSet l S)) stS hword hstS hto hclash
        have hinv1 := detInv_withTransition [l] (ns.indexOf (nfa.stepSet l S))
          hnd hS hstS hinv
        have hinv2 : detInv nfa
            (dfa.withTransition (ns.indexOf S) stS [l]
              (ns.indexOf (nfa.stepSet l S))) ns
            (fun T => if T = S then nfa.detRowOn (done ++ [l]) ns S
              else if T ∈ pend then [] else nfa.detRow ns T) := by
          refine detInv_congr ?_ hinv1
          intro T hT
          by_cases hTS : T = S
          · subst hTS
            simp [NFAutomaton.detRowOn_snoc]
          · simp [hTS]
        obtain ⟨dfa'', nsNew, heq, hnd', hsub', hdone', hinv'⟩ :=
          ih (done ++ [l])
            (dfa.withTransition (ns.indexOf S) stS [l]
              (ns.indexOf (nfa.stepSet l S))) ns enq pend S
            (by rw [hAeq]; simp) hnd hsub hS hSp
            (by
              intro l' hl'
              rcases List.mem_append.mp hl' with h | h
              · exact hdone l' h
              · rw [List.mem_singleton] at h
                subst h
                exact hR)
            hCL hinv2
        simp only [List.append_assoc, List.singleton_append] at hdone' hinv'
        refine ⟨dfa'', nsNew, ?_, hnd', hsub', hdone', hinv'⟩
        rw [NFAutomaton.determinizedStep, hstep]
        simp only [bind, Except.bind]
        rw [if_pos hR, htr]
        simp only [toExcept]
        exact heq
      · -- a fresh subset: a DFA state is allocated before the transition
        have hSne : S ≠ nfa.stepSet l S := fun he => hR (he ▸ hS)
        obtain ⟨hsnone, hinvA⟩ := detInv_add_state hR hinv
        have haddeq : dfa.add_state ns.length false
            (!isdisjoint nfa.finalStatesIds (nfa.stepSet l S)) =
            ((dfa.add_state ns.length false
              (!isdisjoint nfa.finalStatesIds (nfa.stepSet l S))).1, none) := by
          rw [← hsnone]
        have hnd1 : (ns ++ [nfa.stepSet l S]).Nodup := by
          rw [List.nodup_append]
          exact ⟨hnd, List.nodup_singleton _, by rwa [List.disjoint_singleton]⟩
        have hS1 : S ∈ ns ++ [nfa.stepSet l S] := List.mem_append_left _ hS
        have hRmem : nfa.stepSet l S ∈ ns ++ [nfa.stepSet l S] :=
          List.mem_append_right _ (List.mem_singleton.mpr rfl)
        have hA1 := hinvA.1
        have hA4 := hinvA.2.2.2
        have hidxS1 : (ns ++ [nfa.stepSet l S]).indexOf S <
            (ns ++ [nfa.stepSet l S]).length := List.indexOf_lt_length.mpr hS1
        obtain ⟨stS1, hstS1, hfS1, htS1⟩ := hA4 _ hidxS1
        have hgdS1 : (ns ++ [nfa.stepSet l S]).getD
            ((ns ++ [nfa.stepSet l S]).indexOf S) ∅ = S := getD_indexOf_self hS1
        have htS1' : stS1.transitions = nfa.detRowOn done ns S := by
          rw [htS1, hgdS1]
          simp [hSne]
        have hword1 : is_word_on_alphabet [l]
            (dfa.add_state ns.length false
              (!isdisjoint nfa.finalStatesIds (nfa.stepSet l S))).1.alphabet =
            true := by
          simp [is_word_on_alphabet, hA1, hlmem]
        have hto1 : ((dfa.add_state ns.length false
            (!isdisjoint nfa.finalStatesIds (nfa.stepSet l S))).1.getState
              ((ns ++ [nfa.stepSet l S]).indexOf (nfa.stepSet l S))).isSome := by
          obtain ⟨stR, hstR, _, _⟩ := hA4 _ (List.indexOf_lt_length.mpr hRmem)
          simp [hstR]
        have hclash1 : (([l] : List Char).any fun letter =>
            stS1.transitions.any fun t => letter ∈ t.letters) = false := by
          rw [htS1']
          exact NFAutomaton.detRowOn_no_clash hldone
        have htr1 := DFAutomaton.add_transition_ok
          (dfa.add_state ns.length false
            (!isdisjoint nfa.finalStatesIds (nfa.stepSet l S))).1
          [l] ((ns ++ [nfa.stepSet l S]).indexOf S)
          ((ns ++ [nfa.stepSet l S]).indexOf (nfa.stepSet l S)) stS1
          hword1 hstS1 hto1 hclash1
        have hinvB := detInv_withTransition [l]
          ((ns ++ [nfa.stepSet l S]).indexOf (nfa.stepSet l S))
          hnd1 hS1 hstS1 hinvA
        have happ : nfa.detRowOn done (ns ++ [nfa.stepSet l S]) S =
            nfa.detRowOn done ns S := nfa.detRowOn_append hdone
        have hinvC : detInv nfa
            ((dfa.add_state ns.length false
              (!isdisjoint nfa.finalStatesIds
                (nfa.stepSet l S))).1.withTransition
              ((ns ++ [nfa.stepSet l S]).indexOf S) stS1 [l]
              ((ns ++ [nfa.stepSet l S]).indexOf (nfa.stepSet l S)))
            (ns ++ [nfa.stepSet l S])
            (fun T => if T = S then
                nfa.detRowOn (done ++ [l]) (ns ++ [nfa.stepSet l S]) S
              else if T ∈ pend ++ [nfa.stepSet l S] then [] else
                nfa.detRow (ns ++ [nfa.stepSet l S]) T) := by
          refine detInv_congr ?_ hinvB
          intro T hT
          by_cases hTS : T = S
          · have hsnoc := nfa.detRowOn_snoc done l (ns ++ [nfa.stepSet l S]) S
            simp [hTS, hSne, hsnoc, happ]
          · by_cases hTR : T = nfa.stepSet l S
            · subst hTR
              simp [hTS]
            · have hTns : T ∈ ns := by
                rcases List.mem_append.mp hT with h | h
                · exact h
                · exact absurd (List.mem_singleton.mp h) hTR
              by_cases hTp : T ∈ pend
              · simp [hTS, hTR, hTp]
              · have hclT : ∀ l' ∈ nfa.alphabet, nfa.stepSet l' T ∈ ns :=
                  hCL T hTns hTp hTS
                have happT : nfa.detRow (ns ++ [nfa.stepSet l S]) T =
                    nfa.detRow ns T := nfa.detRowOn_append hclT
                simp [hTS, hTR, hTp, happT]
        obtain ⟨dfa'', nsNew', heq, hnd'', hsub'', hdone'', hinv''⟩ :=
          ih (done ++ [l])
            ((dfa.add_state ns.length false
              (!isdisjoint nfa.finalStatesIds
                (nfa.stepSet l S))).1.withTransition
              ((ns ++ [nfa.stepSet l S]).indexOf S) stS1 [l]
              ((ns ++ [nfa.stepSet l S]).indexOf (nfa.stepSet l S)))
            (ns ++ [nfa.stepSet l S]) (enq ++ [nfa.stepSet l S])
            (pend ++ [nfa.stepSet l S]) S
            (by rw [hAeq]; simp) hnd1
            (by
              intro T hT
              rcases List.mem_append.mp hT with h | h
              · exact hsub T h
              · rw [List.mem_singleton] at h
                subst h
                exact hRsub)
            hS1
            (by
              intro hmem
              rcases List.mem_append.mp hmem with h | h
              · exact hSp h
              · exact hSne (List.mem_singleton.mp h))
            (by
              intro l' hl'
              rcases List.mem_append.mp hl' with h | h
              · exact List.mem_append_left _ (hdone l' h)
              · rw [List.mem_singleton] at h
                subst h
                exact hRmem)
            (by
              intro T hT hTp hTS l' hl'
              have hTR : T ≠ nfa.stepSet l S :=
                fun he => hTp (he ▸ List.mem_append_right _
                  (List.mem_singleton.mpr rfl))
              have hTns : T ∈ ns := by
                rcases List.mem_append.mp hT with h | h
                · exact h
                · exact absurd (List.mem_singleton.mp h) hTR
              have hTpend : T ∉ pend :=
                fun hp => hTp (List.mem_append_left _ hp)
              exact List.mem_append_left _ (hCL T hTns hTpend hTS l' hl'))
            hinvC
        simp only [List.append_assoc, List.singleton_append] at heq hnd'' hsub'' hdone'' hinv''
        refine ⟨dfa'', nfa.stepSet l S :: nsNew', ?_, hnd'', hsub'', hdone'',
          hinv''⟩
        rw [NFAutomaton.determinizedStep, hstep]
        simp only [bind, Except.bind]
        rw [if_neg hR, haddeq]
        simp only [toExcept]
        rw [htr1]
        simp only [toExcept]
        exact heq

/-- The worklist loop of `determinized`, specified: with fuel dominating the
powerset bound it returns normally and yields the invariant with every
discovered subset's row complete and the subset list closed under the step
function. -/
theorem determinizedLoop_spec (nfa : NFAutomaton)
    (hclosed : ∀ p ∈ nfa.states, ∀ t ∈ p.2.transitions,
      t.target ∈ nfa.stateIds)
    (halpha : nfa.alphabet.Nodup) :
    ∀ (fuel : Nat) (queue : List (Finset Nat)) (dfa : DFAutomaton)
      (ns : List (Finset Nat)),
    ns.Nodup →
    (∀ T ∈ ns, ∀ q ∈ T, q ∈ nfa.stateIds) →
    queue.Nodup →
    (∀ T ∈ queue, T ∈ ns) →
    (∀ T ∈ ns, T ∉ queue → ∀ l ∈ nfa.alphabet, nfa.stepSet l T ∈ ns) →
    detInv nfa dfa ns (fun T => if T ∈ queue then [] else nfa.detRow ns T) →
    queue.length + 2 ^ nfa.idSet.card ≤ fuel + ns.length →
    ∃ (D : DFAutomaton) (ext : List (Finset Nat)),
      nfa.determinizedLoop fuel queue dfa ns = .ok D ∧
      (ns ++ ext).Nodup ∧
      (∀ T ∈ ns ++ ext, ∀ q ∈ T, q ∈ nfa.stateIds) ∧
      (∀ T ∈ ns ++ ext, ∀ l ∈ nfa.alphabet, nfa.stepSet l T ∈ ns ++ ext) ∧
      detInv nfa D (ns ++ ext) (nfa.detRow (ns ++ ext)) := by
  intro fuel
  induction fuel with
  | zero =>
      intro queue dfa ns hnd hsub hqnd hqsub hCL hinv hfuel
      cases queue with
      | nil =>
          refine ⟨dfa, [], ?_⟩
          simp only [List.append_nil]
          refine ⟨rfl, hnd, hsub,
            fun T hT => hCL T hT (List.not_mem_nil T), ?_⟩
          refine detInv_congr ?_ hinv
          intro T hT
          simp
      | cons S rest =>
          exfalso
          have hle : ns.length ≤ 2 ^ nfa.idSet.card := by
            refine nodup_subsets_length_le hnd ?_
            intro T hT q hq
            exact List.mem_toFinset.mpr (hsub T hT q hq)
          simp only [List.length_cons] at hfuel
          omega
  | succ fuel ihf =>
      intro queue dfa ns hnd hsub hqnd hqsub hCL hinv hfuel
      cases queue with
      | nil =>
          refine ⟨dfa, [], ?_⟩
          simp only [List.append_nil]
          refine ⟨rfl, hnd, hsub,
            fun T hT => hCL T hT (List.not_mem_nil T), ?_⟩
          refine detInv_congr ?_ hinv
          intro T hT
          simp
      | cons S rest =>
          have hS : S ∈ ns := hqsub S (List.mem_cons_self _ _)
          rw [List.nodup_cons] at hqnd
          obtain ⟨dfa', nsNew, hseq, hnd', hsub', hdoneAll, hinv'⟩ :=
            determinizedStep_spec nfa hclosed halpha nfa.alphabet [] dfa ns
              [] rest S rfl hnd hsub hS hqnd.1
              (fun l hl => absurd hl (List.not_mem_nil l))
              (by
                intro T hT hTp hTS l hl
                refine hCL T hT ?_ l hl
                intro hq
                rcases List.mem_cons.mp hq with h | h
                · exact hTS h
                · exact hTp h)
              (by
                refine detInv_congr ?_ hinv
                intro T hT
                by_cases hTS : T = S
                · simp [hTS, NFAutomaton.detRowOn]
                · by_cases hTr : T ∈ rest
                  · simp [hTS, hTr]
                  · simp [hTS, hTr])
          simp only [List.nil_append] at hseq hdoneAll hinv'
          have hnd2 := hnd'
          rw [List.nodup_append] at hnd2
          have hSnew : S ∉ nsNew := fun h => hnd2.2.2 hS h
          obtain ⟨D, ext', hleq, hndF, hsubF, hclF, hinvF⟩ :=
            ihf (rest ++ nsNew) dfa' (ns ++ nsNew) hnd' hsub'
              (by
                rw [List.nodup_append]
                refine ⟨hqnd.2, hnd2.2.1, ?_⟩
                intro a ha hb
                exact hnd2.2.2 (hqsub a (List.mem_cons_of_mem S ha)) hb)
              (by
                intro T hT
                rcases List.mem_append.mp hT with h | h
                · exact List.mem_append_left _
                    (hqsub T (List.mem_cons_of_mem S h))
                · exact List.mem_append_right _ h)
              (by
                intro T hT hTq l hl
                by_cases hTS : T = S
                · subst hTS
                  exact hdoneAll l hl
                · have hTns : T ∈ ns := by
                    rcases List.mem_append.mp hT with h | h
                    · exact h
                    · exact absurd (List.mem_append_right rest h) hTq
                  have hTrest : T ∉ S :: rest := by
                    intro hq
                    rcases List.mem_cons.mp hq with h | h
                    · exact hTS h
                    · exact hTq (List.mem_append_left nsNew h)
                  exact List.mem_append_left _ (hCL T hTns hTrest l hl))
              (by
                refine detInv_congr ?_ hinv'
                intro T hT
                by_cases hTS : T = S
                · have hSq : S ∉ rest ++ nsNew := by
                    intro h
                    rcases List.mem_append.mp h with h' | h'
                    · exact hqnd.1 h'
                    · exact hSnew h'
                  simp [hTS, hSq, NFAutomaton.detRow]
                · simp [hTS])
              (by
                simp only [List.length_append]
                simp only [List.length_cons] at hfuel
                omega)
          simp only [List.append_assoc] at hndF hsubF hclF hinvF
          refine ⟨D, nsNew ++ ext', ?_, hndF, hsubF, hclF, hinvF⟩
          rw [NFAutomaton.determinizedLoop, hseq]
          simp only [bind, Except.bind]
          exact hleq

/-- `determinized`, specified: it returns normally a DFA whose states are
indexed by a duplicate-free list `ns` of discovered subsets of the NFA's
state ids, headed by the initial-state set, closed under the step function,
and whose rows, finality flags, alphabet and initial id are exactly those the
subset construction prescribes. -/
theorem determinized_spec (nfa : NFAutomaton)
    (hclosed : ∀ p ∈ nfa.states, ∀ t ∈ p.2.transitions,
      t.target ∈ nfa.stateIds)
    (hinit : ∀ q ∈ nfa.initialStatesIds, q ∈ nfa.stateIds)
    (halpha : nfa.alphabet.Nodup) :
    ∃ (D : DFAutomaton) (ns : List (Finset Nat)),
      nfa.determinized = .ok D ∧
      ns ≠ [] ∧ ns.Nodup ∧
      ns.getD 0 ∅ = nfa.initialStatesIds ∧
      (∀ T ∈ ns, ∀ q ∈ T, q ∈ nfa.stateIds) ∧
      (∀ T ∈ ns, ∀ l ∈ nfa.alphabet, nfa.stepSet l T ∈ ns) ∧
      detInv nfa D ns (nfa.detRow ns) := by
  have hadd := DFAutomaton.add_state_new_initial nfa.alphabet
    (!isdisjoint nfa.finalStatesIds nfa.initialStatesIds)
  have hinv0 : detInv nfa
      ({ alphabet := nfa.alphabet,
         states := [(0, State.mk 0 [] true
           (!isdisjoint nfa.finalStatesIds nfa.initialStatesIds))],
         initialStateId := some 0,
         finalStatesIds := if (!isdisjoint nfa.finalStatesIds
           nfa.initialStatesIds) then [0] else [],
         completed := false })
      [nfa.initialStatesIds]
      (fun T => if T ∈ [nfa.initialStatesIds] then [] else
        nfa.detRow [nfa.initialStatesIds] T) := by
    refine ⟨rfl, rfl, ?_, ?_⟩
    · simp [DFAutomaton.stateIds, List.range_succ]
    · intro k hk
      simp only [List.length_singleton] at hk
      have hk0 : k = 0 := by omega
      subst hk0
      refine ⟨_, rfl, rfl, ?_⟩
      simp
  have hcard : nfa.idSet.card ≤ nfa.states.length := by
    have h1 : nfa.idSet.card ≤ nfa.stateIds.length := List.toFinset_card_le _
    have h2 : nfa.stateIds.length = nfa.states.length := List.length_map _ _
    omega
  have hpow : 2 ^ nfa.idSet.card ≤ 2 ^ nfa.states.length :=
    Nat.pow_le_pow_right (by omega) hcard
  obtain ⟨D, ext, hleq, hndF, hsubF, hclF, hinvF⟩ :=
    determinizedLoop_spec nfa hclosed halpha (2 ^ nfa.states.length + 1)
      [nfa.initialStatesIds] _ [nfa.initialStatesIds]
      (List.nodup_singleton _)
      (by
        intro T hT q hq
        rw [List.mem_singleton] at hT
        subst hT
        exact hinit q hq)
      (List.nodup_singleton _)
      (fun T hT => hT)
      (by
        intro T hT hTq
        exact absurd hT hTq)
      hinv0
      (by
        simp only [List.length_singleton]
        omega)
  refine ⟨D, [nfa.initialStatesIds] ++ ext, ?_, by simp, hndF, by simp,
    hsubF, hclF, hinvF⟩
  rw [NFAutomaton.determinized, hadd]
  simp only [toExcept, bind, Except.bind]
  exact hleq

/-- `isdisjoint` is symmetric (Python's `isdisjoint` likewise). -/
theorem isdisjoint_comm (a b : Finset Nat) : isdisjoint a b = isdisjoint b a := by
  unfold isdisjoint
  rw [Finset.inter_comm]

/-- Running the constructed DFA from the state of index `k` simulates the
NFA's subset fold: it accepts exactly when the fold of the step function over
the word, started at `k`'s subset, meets the NFA's final set. -/
theorem det_acceptsFrom {nfa : NFAutomaton} {D : DFAutomaton}
    {ns : List (Finset Nat)}
    (hinv : detInv nfa D ns (nfa.detRow ns))
    (hcl : ∀ T ∈ ns, ∀ l ∈ nfa.alphabet, nfa.stepSet l T ∈ ns) :
    ∀ (w : List Char), is_word_on_alphabet w nfa.alphabet = true →
    ∀ k, k < ns.length →
    D.acceptsFrom k w = .ok (!isdisjoint nfa.finalStatesIds
      (w.foldl (fun T l => nfa.stepSet l T) (ns.getD k ∅))) := by
  have h4 := hinv.2.2.2
  intro w
  induction w with
  | nil =>
      intro _ k hk
      obtain ⟨st, hst, hf, _⟩ := h4 k hk
      rw [DFAutomaton.acceptsFrom]
      simp only [hst, List.foldl_nil]
      rw [hf]
  | cons l rest ih =>
      intro hw k hk
      have hw' : l ∈ nfa.alphabet ∧
          is_word_on_alphabet rest nfa.alphabet = true := by
        simpa [is_word_on_alphabet] using hw
      obtain ⟨st, hst, _, ht⟩ := h4 k hk
      rw [NFAutomaton.detRow] at ht
      have hsucc : D.successor k l =
          .ok (some (ns.indexOf (nfa.stepSet l (ns.getD k ∅)))) := by
        unfold DFAutomaton.successor
        simp only [hst]
        rw [ht]
        exact congrArg Except.ok (NFAutomaton.findSome?_detRowOn hw'.1)
      rw [DFAutomaton.acceptsFrom, hsucc, List.foldl_cons]
      have hmem : nfa.stepSet l (ns.getD k ∅) ∈ ns :=
        hcl _ (List.getD_mem_of_lt ns hk) l hw'.1
      have hrec := ih hw'.2 _ (List.indexOf_lt_length.mpr hmem)
      rw [getD_indexOf_self hmem] at hrec
      exact hrec

/-- Claim C1 (language equivalence of the subset construction): for every
NFA respecting the data model's invariants — the alphabet is a set, every
stored transition targets a present state and every initial id is present,
as holds for every NFA built through the API — and every word over the
alphabet, `determinized()` returns a DFA and `accepts` agrees on the word
between the NFA and that DFA. -/
theorem c1_determinized_language_equiv (nfa : NFAutomaton)
    (hclosed : ∀ p ∈ nfa.states, ∀ t ∈ p.2.transitions,
      t.target ∈ nfa.stateIds)
    (hinit : ∀ q ∈ nfa.initialStatesIds, q ∈ nfa.stateIds)
    (halpha : nfa.alphabet.Nodup)
    (w : List Char) (hw : is_word_on_alphabet w nfa.alphabet = true) :
    ∃ (D : DFAutomaton) (b : Bool), nfa.determinized = .ok D ∧
      nfa.accepts w = .ok b ∧ D.accepts w = .ok b := by
  obtain ⟨D, ns, heq, hne, hnd, hgd0, hsub, hcl, hinv⟩ :=
    determinized_spec nfa hclosed hinit halpha
  refine ⟨D, !isdisjoint nfa.finalStatesIds
    (w.foldl (fun T l => nfa.stepSet l T) nfa.initialStatesIds), heq, ?_, ?_⟩
  · unfold NFAutomaton.accepts
    rw [nfa.acceptsFrom_ok hclosed w nfa.initialStatesIds hinit,
      isdisjoint_comm]
  · unfold DFAutomaton.accepts
    rw [hinv.2.1]
    have h0 : 0 < ns.length := by
      cases ns with
      | nil => exact absurd rfl hne
      | cons a t => simp
    have hrun := det_acceptsFrom hinv hcl w hw 0 h0
    rw [hgd0] at hrun
    exact hrun

/-- Witness for `c1_determinized_language_equiv`: the words-ending-in-`a`
NFA of the repository's tests and the word `"ababba"` from the spec's
example. -/
theorem c1_witness :
    ∃ (D : DFAutomaton) (b : Bool), endA.determinized = .ok D ∧
      endA.accepts ['a', 'b', 'a', 'b', 'b', 'a'] = .ok b ∧
      D.accepts ['a', 'b', 'a', 'b', 'b', 'a'] = .ok b :=
  c1_determinized_language_equiv endA (by decide) (by decide) (by decide)
    ['a', 'b', 'a', 'b', 'b', 'a'] (by decide)

/-- Claim C10 (the determinized DFA is complete and deterministic by
construction): under the same data-model invariants as claim C1,
`determinized()` returns a DFA that satisfies the determinism invariant,
in which every state carries exactly one outgoing transition per alphabet
letter, and on which `successor` is consequently defined (returns a present
state, never `None` and never an exception) for every state/letter pair —
with no call to `complete()`. -/
theorem c10_determinized_complete_deterministic (nfa : NFAutomaton)
    (hclosed : ∀ p ∈ nfa.states, ∀ t ∈ p.2.transitions,
      t.target ∈ nfa.stateIds)
    (hinit : ∀ q ∈ nfa.initialStatesIds, q ∈ nfa.stateIds)
    (halpha : nfa.alphabet.Nodup) :
    ∃ D : DFAutomaton, nfa.determinized = .ok D ∧
      D.deterministic ∧
      (∀ id ∈ D.stateIds, ∀ l ∈ D.alphabet, ∃ st, D.getState id = some st ∧
        (st.transitions.filter fun t => decide (l ∈ t.letters)).length = 1) ∧
      (∀ id ∈ D.stateIds, ∀ l ∈ D.alphabet,
        ∃ n, D.successor id l = .ok (some n) ∧ n ∈ D.stateIds) := by
  obtain ⟨D, ns, heq, hne, hnd, hgd0, hsub, hcl, hinv⟩ :=
    determinized_spec nfa hclosed hinit halpha
  obtain ⟨h1, h2, h3, h4⟩ := hinv
  have hndk : (D.states.map Prod.fst).Nodup := by
    show D.stateIds.Nodup
    rw [h3]
    exact List.nodup_range _
  refine ⟨D, heq, ?_, ?_, ?_⟩
  · intro p hp
    have hk : p.1 ∈ D.stateIds := List.mem_map.mpr ⟨p, hp, rfl⟩
    rw [h3, List.mem_range] at hk
    obtain ⟨st, hst, _, ht⟩ := h4 p.1 hk
    have hlook : D.states.lookup p.1 = some p.2 :=
      lookup_eq_of_mem_nodup hndk hp
    have hst2 : D.states.lookup p.1 = some st := hst
    rw [hlook] at hst2
    obtain rfl : p.2 = st := Option.some.injEq _ _ ▸ hst2
    rw [ht, NFAutomaton.detRow]
    exact nfa.detRowOn_pairwise halpha ns _
  · intro id hid l hl
    rw [h3, List.mem_range] at hid
    rw [h1] at hl
    obtain ⟨st, hst, _, ht⟩ := h4 id hid
    refine ⟨st, hst, ?_⟩
    rw [ht, NFAutomaton.detRow]
    exact NFAutomaton.detRowOn_filter_one halpha hl
  · intro id hid l hl
    rw [h3, List.mem_range] at hid
    rw [h1] at hl
    obtain ⟨st, hst, _, ht⟩ := h4 id hid
    refine ⟨ns.indexOf (nfa.stepSet l (ns.getD id ∅)), ?_, ?_⟩
    · unfold DFAutomaton.successor
      simp only [hst]
      rw [ht, NFAutomaton.detRow]
      exact congrArg Except.ok (NFAutomaton.findSome?_detRowOn hl)
    · have hmem : nfa.stepSet l (ns.getD id ∅) ∈ ns :=
        hcl _ (List.getD_mem_of_lt ns hid) l hl
      rw [h3, List.mem_range]
      exact List.indexOf_lt_length.mpr hmem

/-- Witness for `c10_determinized_complete_deterministic` on the
words-ending-in-`a` NFA of the repository's tests. -/
theorem c10_witness :
    ∃ D : DFAutomaton, endA.determinized = .ok D ∧
      D.deterministic ∧
      (∀ id ∈ D.stateIds, ∀ l ∈ D.alphabet, ∃ st, D.getState id = some st ∧
        (st.transitions.filter fun t => decide (l ∈ t.letters)).length = 1) ∧
      (∀ id ∈ D.stateIds, ∀ l ∈ D.alphabet,
        ∃ n, D.successor id l = .ok (some n) ∧ n ∈ D.stateIds) :=
  c10_determinized_complete_deterministic endA (by decide) (by decide)
    (by decide)

/-! ## Claim C9 (amended theorem)

The claim also cites the legacy root module `src/automata.py` (lines 80-98):
its `DFAutomaton.accepts` predates the packaged one and differs in exactly
the behaviour at issue, so it is embedded separately below. -/

namespace Legacy

/-- `self._states[current_state_id]` in the legacy `accepts`
(`src/automata.py`): `current_state_id` starts as `self._initial_state_id`,
which may be `None`; a `None` key (or any missing key) raises `KeyError` —
the legacy code has no guard for an unset initial state. -/
def statesAt (dfa : DFAutomaton) : Option Nat → Except PyErr State
  | none => .error .keyError
  | some id =>
      match dfa.getState id with
      | none => .error .keyError
      | some st => .ok st

/-- The inner `for transition in self._states[...]._transitions` loop of the
legacy `accepts`: it scans every transition (no break), setting `found` on a
match and leaving `current_state_id` at the target of the last match. -/
def scan (st : State) (letter : Char) (cur : Option Nat) :
    Bool × Option Nat :=
  st.transitions.foldl
    (fun acc t => if letter ∈ t.letters then (true, some t.target) else acc)
    (false, cur)

/-- The `for letter in word` loop of the legacy `accepts`, followed by the
final-flag read `self._states[current_state_id]._final`. -/
def acceptsLoop (dfa : DFAutomaton) : Option Nat → List Char →
    Except PyErr Bool
  | cur, [] =>
      match statesAt dfa cur with
      | .error e => .error e
      | .ok st => .ok st.final
  | cur, letter :: rest =>
      match statesAt dfa cur with
      | .error e => .error e
      | .ok st =>
          let res := scan st letter cur
          if res.1 then acceptsLoop dfa res.2 rest else .ok false

/-- Legacy `DFAutomaton.accepts` (`src/automata.py`, lines 80-98).  The
legacy class carries the same `accepts`-relevant data (`_states`,
`_initial_state_id`) as the packaged one, so it is modelled over the same
record. -/
def accepts (dfa : DFAutomaton) (word : List Char) : Except PyErr Bool :=
  acceptsLoop dfa dfa.initialStateId word

end Legacy

/-- A letter carried by no transition of the NFA steps every subset to the
empty set. -/
theorem NFAutomaton.stepSet_empty_of_unused {nfa : NFAutomaton} {l : Char}
    (hbad : ∀ p ∈ nfa.states, ∀ t ∈ p.2.transitions, l ∉ t.letters)
    (T : Finset Nat) : nfa.stepSet l T = ∅ := by
  rw [Finset.eq_empty_iff_forall_not_mem]
  intro x hx
  unfold NFAutomaton.stepSet at hx
  obtain ⟨q, hq, hqx⟩ := Finset.mem_biUnion.mp hx
  obtain ⟨st, hst, t, ht, -, hlet⟩ := NFAutomaton.mem_letterTargets_letter hqx
  exact hbad (q, st) (lookup_mem hst) t ht hlet

/-- The reachable-set fold never escapes the empty set. -/
theorem NFAutomaton.foldl_stepSet_empty (nfa : NFAutomaton) :
    ∀ v : List Char, v.foldl (fun T l => nfa.stepSet l T) ∅ = ∅ := by
  intro v
  induction v with
  | nil => rfl
  | cons a r ihr =>
      rw [List.foldl_cons]
      have hstep : nfa.stepSet a ∅ = ∅ := by
        rw [Finset.eq_empty_iff_forall_not_mem]
        intro x hx
        unfold NFAutomaton.stepSet at hx
        obtain ⟨q, hq, -⟩ := Finset.mem_biUnion.mp hx
        exact absurd hq (Finset.not_mem_empty q)
      rw [hstep]
      exact ihr

/-- Claim C9, amended.  For the packaged implementation
(`src/automata/automata.py`): a DFA with no initial state rejects every
word; on every automaton whose transitions target present states and whose
initial state(s) are present — the well-formedness the construction API
maintains but `merge_equivalent_states` can break — `accepts` never raises,
and it returns `false` whenever the word contains a letter carried by no
transition of the automaton.  For the legacy root-module implementation
(`src/automata.py`, lines 80-98), also cited by the claim: on a DFA with no
initial state its `accepts` evaluates `self._states[None]` and raises
`KeyError` on every word, so the claim's unset-initial guarantee fails for
that cited code. -/
theorem c9_accepts_never_raises :
    (∀ (dfa : DFAutomaton) (w : List Char), dfa.initialStateId = none →
      dfa.accepts w = .ok false) ∧
    (∀ (dfa : DFAutomaton) (w : List Char),
      (∀ p ∈ dfa.states, ∀ t ∈ p.2.transitions, t.target ∈ dfa.stateIds) →
      (∀ i, dfa.initialStateId = some i → i ∈ dfa.stateIds) →
      (∃ b, dfa.accepts w = .ok b) ∧
      ((∃ l ∈ w, ∀ p ∈ dfa.states, ∀ t ∈ p.2.transitions, l ∉ t.letters) →
        dfa.accepts w = .ok false)) ∧
    (∀ (nfa : NFAutomaton) (w : List Char),
      (∀ p ∈ nfa.states, ∀ t ∈ p.2.transitions, t.target ∈ nfa.stateIds) →
      (∀ q ∈ nfa.initialStatesIds, q ∈ nfa.stateIds) →
      (∃ b, nfa.accepts w = .ok b) ∧
      ((∃ l ∈ w, ∀ p ∈ nfa.states, ∀ t ∈ p.2.transitions, l ∉ t.letters) →
        nfa.accepts w = .ok false)) ∧
    (∀ (dfa : DFAutomaton) (w : List Char), dfa.initialStateId = none →
      Legacy.accepts dfa w = .error .keyError) := by
  refine ⟨?_, ?_, ?_, ?_⟩
  · intro dfa w h
    unfold DFAutomaton.accepts
    rw [h]
  · intro dfa w hclosed hinit
    have hrun : ∀ (w : List Char) (cur : Nat), cur ∈ dfa.stateIds →
        ∃ b, dfa.acceptsFrom cur w = .ok b ∧
          ((∃ l ∈ w, ∀ p ∈ dfa.states, ∀ t ∈ p.2.transitions,
            l ∉ t.letters) → b = false) := by
      intro w
      induction w with
      | nil =>
          intro cur hcur
          obtain ⟨st, hst⟩ := Option.isSome_iff_exists.mp
            (lookup_isSome_iff.mpr hcur)
          have hstg : dfa.getState cur = some st := hst
          refine ⟨st.final, ?_, ?_⟩
          · rw [DFAutomaton.acceptsFrom, hstg]
          · rintro ⟨l, hl, -⟩
            exact absurd hl (List.not_mem_nil l)
      | cons l rest ihw =>
          intro cur hcur
          obtain ⟨st, hst⟩ := Option.isSome_iff_exists.mp
            (lookup_isSome_iff.mpr hcur)
          have hstg : dfa.getState cur = some st := hst
          have hsucc : dfa.successor cur l =
              .ok (st.transitions.findSome? fun t =>
                if l ∈ t.letters then some t.target else none) := by
            unfold DFAutomaton.successor
            rw [hstg]
          rw [DFAutomaton.acceptsFrom, hsucc]
          cases hf : st.transitions.findSome? fun t =>
              if l ∈ t.letters then some t.target else none with
          | none => exact ⟨false, rfl, fun _ => rfl⟩
          | some j =>
              obtain ⟨t, ht, hc, htar⟩ := findSome?_eq_some_target hf
              have hj : j ∈ dfa.stateIds :=
                htar ▸ hclosed (cur, st) (lookup_mem hst) t ht
              obtain ⟨b, hb, hbf⟩ := ihw j hj
              refine ⟨b, hb, ?_⟩
              rintro ⟨l0, hl0, hbad⟩
              rcases List.mem_cons.mp hl0 with rfl | hl0r
              · exact absurd hc (hbad (cur, st) (lookup_mem hst) t ht)
              · exact hbf ⟨l0, hl0r, hbad⟩
    cases hi : dfa.initialStateId with
    | none =>
        have hacc : dfa.accepts w = .ok false := by
          unfold DFAutomaton.accepts
          rw [hi]
        exact ⟨⟨false, hacc⟩, fun _ => hacc⟩
    | some i =>
        obtain ⟨b, hb, hbf⟩ := hrun w i (hinit i hi)
        have hacc : dfa.accepts w = .ok b := by
          unfold DFAutomaton.accepts
          rw [hi]
          exact hb
        refine ⟨⟨b, hacc⟩, fun hcond => ?_⟩
        rw [hacc, hbf hcond]
  · intro nfa w hclosed hinit
    have hok := nfa.acceptsFrom_ok hclosed w nfa.initialStatesIds hinit
    refine ⟨⟨_, hok⟩, ?_⟩
    rintro ⟨l0, hl0, hbad⟩
    have hmain : ∀ (v : List Char) (S : Finset Nat), l0 ∈ v →
        v.foldl (fun T l => nfa.stepSet l T) S = ∅ := by
      intro v
      induction v with
      | nil =>
          intro S h
          exact absurd h (List.not_mem_nil l0)
      | cons a r ihr =>
          intro S h
          rw [List.foldl_cons]
          rcases List.mem_cons.mp h with rfl | hr
          · rw [NFAutomaton.stepSet_empty_of_unused hbad S]
            exact nfa.foldl_stepSet_empty r
          · exact ihr (nfa.stepSet a S) hr
    show nfa.acceptsFrom nfa.initialStatesIds w = .ok false
    rw [hok, hmain w nfa.initialStatesIds hl0]
    simp [isdisjoint]
  · intro dfa w h
    unfold Legacy.accepts
    rw [h]
    cases w <;> rfl

/-- Witness for `c9_accepts_never_raises`: a DFA with no initial state; the
parity DFA and the `test_nfa` NFA on words containing the unused letter `z`
(no raise, and the result is `false`); and the legacy `accepts` raising on a
DFA with no initial state. -/
theorem c9_witness :
    ((DFAutomaton.new ['a']).accepts ['x'] = .ok false ∧
      parityDFA.accepts ['z', 'i'] = .ok false ∧
      endA.accepts ['a', 'b', 'z'] = .ok false) ∧
    ((∃ b, parityDFA.accepts ['z', 'i'] = .ok b) ∧
      (∃ b, endA.accepts ['a', 'b', 'z'] = .ok b)) ∧
    Legacy.accepts (DFAutomaton.new ['a']) ['a'] = .error .keyError :=
  ⟨⟨c9_accepts_never_raises.1 (DFAutomaton.new ['a']) ['x'] rfl,
    (c9_accepts_never_raises.2.1 parityDFA ['z', 'i'] (by decide)
      (by decide)).2 (by decide),
    (c9_accepts_never_raises.2.2.1 endA ['a', 'b', 'z'] (by decide)
      (by decide)).2 (by decide)⟩,
   ⟨(c9_accepts_never_raises.2.1 parityDFA ['z', 'i'] (by decide)
      (by decide)).1,
    (c9_accepts_never_raises.2.2.1 endA ['a', 'b', 'z'] (by decide)
      (by decide)).1⟩,
   c9_accepts_never_raises.2.2.2 (DFAutomaton.new ['a']) ['a'] rfl⟩
